import Mathlib

/-!
Shallow embedding of the ZMK text-expander module
(`src/text_expander.c`, with `expansion_engine.c` / `hid_utils.c` duplicating
the same handlers).  The pointer-graph trie over the two bump arenas is
modelled index-based: trie nodes live in a list (the node pool), child
pointers are indices into that list, and text references are offsets into the
text pool, mirroring the C data layout.  `errno`-style return codes are kept
as integers (`-EINVAL`, `-ENOMEM`, `-ENOENT`).
-/

namespace TextExpander

/-- `EINVAL` errno value. -/
def EINVAL : Int := 22
/-- `ENOENT` errno value. -/
def ENOENT : Int := 2
/-- `ENOMEM` errno value. -/
def ENOMEM : Int := 12

/-- The NUL character terminating C strings. -/
def nul : Char := Char.ofNat 0

/-- Compile-time configuration: `CONFIG_ZMK_TEXT_EXPANDER_MAX_SHORT_LEN`,
`CONFIG_ZMK_TEXT_EXPANDER_MAX_EXPANDED_LEN`,
`CONFIG_ZMK_TEXT_EXPANDER_MAX_EXPANSIONS`. -/
structure Config where
  maxShortLen : Nat
  maxExpandedLen : Nat
  maxExpansions : Nat
deriving DecidableEq

/-- Capacity of the node pool: `MAX_EXPANSIONS * MAX_SHORT_LEN` nodes. -/
def nodeCap (cfg : Config) : Nat := cfg.maxExpansions * cfg.maxShortLen

/-- Capacity of the text pool: `MAX_EXPANSIONS * MAX_EXPANDED_LEN` bytes. -/
def textCap (cfg : Config) : Nat := cfg.maxExpansions * cfg.maxExpandedLen

/-- `struct trie_node`: 36 child slots (indices into the node pool),
an optional text reference (offset into the text pool), a terminal flag. -/
structure TrieNode where
  children : List (Option Nat)
  expanded_text : Option Nat
  is_terminal : Bool
deriving DecidableEq

/-- A freshly `memset` node: all children NULL, no text, not terminal. -/
def emptyNode : TrieNode :=
  { children := List.replicate 36 none, expanded_text := none, is_terminal := false }

instance : Inhabited TrieNode := ⟨emptyNode⟩

/-- `struct text_expander_data`: the root pointer, the input buffer
(`current_short`, whose tracked length is `current_short.length`), the entry
counter and the two arenas.  `nodes` holds exactly the `node_pool_used`
allocated nodes; `text_pool` has fixed length `textCap` with `text_pool_used`
as the bump cursor. -/
structure ExpanderData where
  root : Option Nat
  current_short : List Char
  expansion_count : Nat
  nodes : List TrieNode
  text_pool : List Char
  text_pool_used : Nat
deriving DecidableEq

/-- Dereference a node-pool index (valid indices only ever arise in C). -/
def getNode (d : ExpanderData) (i : Nat) : TrieNode := d.nodes.getD i emptyNode

/-- Store a node back into the pool. -/
def setNode (d : ExpanderData) (i : Nat) (n : TrieNode) : ExpanderData :=
  { d with nodes := d.nodes.set i n }

/-- Read child slot `j` of node `n`. -/
def childAt (d : ExpanderData) (i j : Nat) : Option Nat :=
  (getNode d i).children.getD j none

/-- `char_to_trie_index`: maps `a..z` to `0..25`, `0..9` to `26..35`,
everything else to `-1`. -/
def char_to_trie_index (c : Char) : Int :=
  if 'a' ≤ c ∧ c ≤ 'z' then (c.toNat : Int) - 97
  else if '0' ≤ c ∧ c ≤ '9' then 26 + ((c.toNat : Int) - 48)
  else -1

/-- `allocate_trie_node`: bump-allocate a zeroed node, or fail when
`node_pool_used >= ARRAY_SIZE(node_pool)`. -/
def allocate_trie_node (cfg : Config) (d : ExpanderData) :
    ExpanderData × Option Nat :=
  if nodeCap cfg ≤ d.nodes.length then (d, none)
  else ({ d with nodes := d.nodes ++ [emptyNode] }, some d.nodes.length)

/-- `allocate_text_storage`: bump-allocate `len` bytes, or fail when
`text_pool_used + len > sizeof(text_pool)`. -/
def allocate_text_storage (cfg : Config) (d : ExpanderData) (len : Nat) :
    ExpanderData × Option Nat :=
  if textCap cfg < d.text_pool_used + len then (d, none)
  else ({ d with text_pool_used := d.text_pool_used + len }, some d.text_pool_used)

/-- Read the C string starting at the head of `l` (stop at NUL or pool end). -/
def readCStrGo : List Char → List Char
  | [] => []
  | c :: cs => if c = nul then [] else c :: readCStrGo cs

/-- Read the C string stored at offset `off` of the text pool. -/
def readCStr (pool : List Char) (off : Nat) : List Char :=
  readCStrGo (pool.drop off)

/-- `strcpy(pool + off, v)`: write the characters of `v` followed by NUL. -/
def writeCStr (pool : List Char) (off : Nat) : List Char → List Char
  | [] => pool.set off nul
  | c :: cs => writeCStr (pool.set off c) (off + 1) cs

/-- The pure child walk shared by `trie_search` (and the prefix walk):
follow `children[char_to_trie_index c]` for each character. -/
def walkPath (d : ExpanderData) : Nat → List Char → Option Nat
  | cur, [] => some cur
  | cur, c :: cs =>
    let idx := char_to_trie_index c
    if idx = -1 then none
    else
      match childAt d cur idx.toNat with
      | none => none
      | some child => walkPath d child cs

/-- `trie_search`: walk the key and return the final node if it is terminal. -/
def trie_search (d : ExpanderData) (root : Option Nat) (key : List Char) :
    Option Nat :=
  match root with
  | none => none
  | some r =>
    match walkPath d r key with
    | none => none
    | some n => if (getNode d n).is_terminal then some n else none

/-- Replace child slot `j` of a node. -/
def setChild (n : TrieNode) (j : Nat) (v : Option Nat) : TrieNode :=
  { n with children := n.children.set j v }

/-- The walk/create loop of `trie_insert`: walk the key, allocating missing
nodes from the node pool; nodes already created stay allocated when a later
step fails (`-EINVAL` on an invalid character, `-ENOMEM` on exhaustion). -/
def trie_insert_walk (cfg : Config) :
    ExpanderData → Nat → List Char → ExpanderData × Except Int Nat
  | d, cur, [] => (d, .ok cur)
  | d, cur, c :: cs =>
    let idx := char_to_trie_index c
    if idx = -1 then (d, .error (-EINVAL))
    else
      match childAt d cur idx.toNat with
      | some child => trie_insert_walk cfg d child cs
      | none =>
        match allocate_trie_node cfg d with
        | (d1, none) => (d1, .error (-ENOMEM))
        | (d1, some fresh) =>
          let d2 := setNode d1 cur (setChild (getNode d1 cur) idx.toNat (some fresh))
          trie_insert_walk cfg d2 fresh cs

/-- Tail of `trie_insert` once the walk reached node `n` and the in-place
branch was not taken: allocate a fresh text slot (on failure the node's text
reference has already been overwritten with NULL), copy the value, mark the
node terminal. -/
def trie_insert_store (cfg : Config) (d : ExpanderData) (n : Nat)
    (value : List Char) : ExpanderData × Int :=
  match allocate_text_storage cfg d (value.length + 1) with
  | (d1, none) => (setNode d1 n { getNode d1 n with expanded_text := none }, -ENOMEM)
  | (d1, some off) =>
    let d2 := setNode d1 n { getNode d1 n with expanded_text := some off }
    let d3 := { d2 with text_pool := writeCStr d2.text_pool off value }
    (setNode d3 n { getNode d3 n with is_terminal := true }, 0)

/-- `trie_insert`: walk/create the path; if the final node is terminal and its
stored string (including terminator) is at least as long as the new value's,
overwrite the text-arena slot in place; otherwise allocate a fresh slot
(orphaning the old one) and mark the node terminal. -/
def trie_insert (cfg : Config) (d : ExpanderData) (root : Option Nat)
    (key value : List Char) : ExpanderData × Int :=
  match root with
  | none => (d, -EINVAL)
  | some r =>
    match trie_insert_walk cfg d r key with
    | (d1, .error e) => (d1, e)
    | (d1, .ok n) =>
      match (getNode d1 n).is_terminal, (getNode d1 n).expanded_text with
      | true, some off =>
        if value.length + 1 ≤ (readCStr d1.text_pool off).length + 1 then
          ({ d1 with text_pool := writeCStr d1.text_pool off value }, 0)
        else trie_insert_store cfg d1 n value
      | _, _ => trie_insert_store cfg d1 n value

/-- The walk of `trie_delete`: `-EINVAL` on an invalid character, `-ENOENT`
on a missing child. -/
def trie_delete_go (d : ExpanderData) : Nat → List Char → Except Int Nat
  | cur, [] => .ok cur
  | cur, c :: cs =>
    let idx := char_to_trie_index c
    if idx = -1 then .error (-EINVAL)
    else
      match childAt d cur idx.toNat with
      | none => .error (-ENOENT)
      | some child => trie_delete_go d child cs

/-- `trie_delete`: walk at most `MAX_SHORT_LEN` characters of the key (the
`path_len < MAX_SHORT_LEN` loop bound); if the final node is non-terminal
report `-ENOENT`, otherwise clear the terminal flag and drop the text
reference (no node or text reclamation). -/
def trie_delete (cfg : Config) (d : ExpanderData) (root : Option Nat)
    (key : List Char) : ExpanderData × Int :=
  match root with
  | none => (d, -EINVAL)
  | some r =>
    match trie_delete_go d r (key.take cfg.maxShortLen) with
    | .error e => (d, e)
    | .ok n =>
      if (getNode d n).is_terminal then
        (setNode d n { getNode d n with is_terminal := false, expanded_text := none }, 0)
      else (d, -ENOENT)

/-! ### Admin API (`zmk_text_expander_*`) -/

/-- The character class accepted for short codes by the admin validation:
lowercase letters and digits. -/
def validKeyChar (c : Char) : Bool :=
  ('a' ≤ c && c ≤ 'z') || ('0' ≤ c && c ≤ '9')

/-- `zmk_text_expander_add_expansion`: null/length/alphabet validation, then
`trie_insert`; the entry counter is incremented only when the insert succeeded
and the key was not already present (`trie_search` hit).  The counter is a
`uint8_t` in C, so the increment wraps modulo 256.  Nullable C string
arguments are `Option`s. -/
def zmk_text_expander_add_expansion (cfg : Config) (d : ExpanderData)
    (short_code expanded_text : Option (List Char)) : ExpanderData × Int :=
  match short_code, expanded_text with
  | none, _ => (d, -EINVAL)
  | _, none => (d, -EINVAL)
  | some key, some value =>
    if key.length = 0 ∨ cfg.maxShortLen ≤ key.length ∨
        value.length = 0 ∨ cfg.maxExpandedLen ≤ value.length then
      (d, -EINVAL)
    else if ¬ key.all validKeyChar then (d, -EINVAL)
    else
      let is_update := (trie_search d d.root key).isSome
      let res := trie_insert cfg d d.root key value
      if res.2 = 0 ∧ ¬ is_update then
        ({ res.1 with expansion_count := (res.1.expansion_count + 1) % 256 }, res.2)
      else res

/-- `zmk_text_expander_remove_expansion`: delegate to `trie_delete`,
decrement the entry counter only on success.  The counter is a `uint8_t` in
C, so the decrement wraps modulo 256 (`x - 1` is `x + 255` mod 256). -/
def zmk_text_expander_remove_expansion (cfg : Config) (d : ExpanderData)
    (short_code : Option (List Char)) : ExpanderData × Int :=
  match short_code with
  | none => (d, -EINVAL)
  | some key =>
    let res := trie_delete cfg d d.root key
    if res.2 = 0 then
      ({ res.1 with expansion_count := (res.1.expansion_count + 255) % 256 }, res.2)
    else res

/-- `zmk_text_expander_clear_all`: rewind both arena cursors, zero the entry
counter and reallocate a fresh root (the input buffer is not touched). -/
def zmk_text_expander_clear_all (cfg : Config) (d : ExpanderData) :
    ExpanderData :=
  let d1 := { d with nodes := ([] : List TrieNode), text_pool_used := 0,
                     expansion_count := 0 }
  let res := allocate_trie_node cfg d1
  { res.1 with root := res.2 }

/-- `zmk_text_expander_get_count`. -/
def zmk_text_expander_get_count (d : ExpanderData) : Nat := d.expansion_count

/-- `zmk_text_expander_exists`. -/
def zmk_text_expander_exists (d : ExpanderData) (short_code : Option (List Char)) :
    Bool :=
  match short_code with
  | none => false
  | some key => (trie_search d d.root key).isSome

/-- `find_expansion`: `trie_search`, then the node's text reference
(NULL both when the key misses and when the terminal node's text is NULL). -/
def find_expansion (d : ExpanderData) (key : List Char) : Option Nat :=
  match trie_search d d.root key with
  | none => none
  | some n => (getNode d n).expanded_text

/-- The string actually read back through `find_expansion`. -/
def lookup_value (d : ExpanderData) (key : List Char) : Option (List Char) :=
  (find_expansion d key).map (readCStr d.text_pool)

/-- `text_expander_init` (global part): zeroed state with a fixed-size text
pool, then the root node is allocated.  The default `("exp","expanded")`
entry loaded afterwards is an ordinary `add_expansion` call. -/
def initData (cfg : Config) : ExpanderData :=
  let d0 : ExpanderData :=
    { root := none, current_short := [], expansion_count := 0,
      nodes := [], text_pool := List.replicate (textCap cfg) nul,
      text_pool_used := 0 }
  let res := allocate_trie_node cfg d0
  { res.1 with root := res.2 }

/-! ### Input buffer automaton -/

/-- `reset_current_short`. -/
def reset_current_short (d : ExpanderData) : ExpanderData :=
  { d with current_short := [] }

/-- `add_to_current_short`: append while `current_short_len < MAX_SHORT_LEN-1`;
on overflow the C code resets the buffer and recursively re-adds the
character.  For `MAX_SHORT_LEN ≥ 2` one unrolling of that recursion suffices
(the second branch); for `MAX_SHORT_LEN ≤ 1` the C recursion never terminates,
so the final branch (plain reset) is a total stand-in for an unreachable
configuration. -/
def add_to_current_short (cfg : Config) (d : ExpanderData) (c : Char) :
    ExpanderData :=
  if d.current_short.length < cfg.maxShortLen - 1 then
    { d with current_short := d.current_short ++ [c] }
  else if 0 < cfg.maxShortLen - 1 then { d with current_short := [c] }
  else reset_current_short d

/-- HID usage IDs used by the listener and the engine
(`HID_USAGE_KEY_KEYBOARD_*`). -/
def KC_A : Nat := 4
def KC_Z : Nat := 29
def KC_1 : Nat := 30
def KC_9 : Nat := 38
def KC_0 : Nat := 39
def KC_ENTER : Nat := 40
def KC_BKSP : Nat := 42
def KC_TAB : Nat := 43
def KC_SPACE : Nat := 44
def KC_LSHIFT : Nat := 225
def KC_RSHIFT : Nat := 229
def KC_LCTRL : Nat := 224
def KC_RCTRL : Nat := 228
def KC_LALT : Nat := 226
def KC_RALT : Nat := 230
def KC_LGUI : Nat := 227
def KC_RGUI : Nat := 231

/-- `text_expander_keycode_state_changed_listener` (state transition on one
key event; release events and events dropped because the mutex was busy leave
the buffer unchanged — the latter is a concurrency condition outside this
model).  Letter and digit keys append, space resets, the listed modifier /
enter / tab / backspace keys are exempt, every other key resets. -/
def text_expander_keycode_state_changed_listener (cfg : Config)
    (d : ExpanderData) (keycode : Nat) (pressed : Bool) : ExpanderData :=
  if ¬ pressed then d
  else if KC_A ≤ keycode ∧ keycode ≤ KC_Z then
    add_to_current_short cfg d (Char.ofNat (97 + (keycode - KC_A)))
  else if KC_1 ≤ keycode ∧ keycode ≤ KC_9 then
    add_to_current_short cfg d (Char.ofNat (49 + (keycode - KC_1)))
  else if keycode = KC_0 then add_to_current_short cfg d '0'
  else if keycode = KC_SPACE then reset_current_short d
  else if keycode = KC_LSHIFT ∨ keycode = KC_RSHIFT ∨ keycode = KC_LCTRL ∨
      keycode = KC_RCTRL ∨ keycode = KC_LALT ∨ keycode = KC_RALT ∨
      keycode = KC_LGUI ∨ keycode = KC_RGUI ∨ keycode = KC_ENTER ∨
      keycode = KC_TAB ∨ keycode = KC_BKSP then d
  else reset_current_short d

/-! ### Expansion engine -/

/-- One emitted press or release of a HID keycode
(`send_and_flush_key_action`). -/
inductive KeyAction where
  | press (keycode : Nat)
  | release (keycode : Nat)
deriving DecidableEq

/-- `char_to_keycode`: ASCII character to HID usage plus needs-shift flag;
`(0, _)` is the unsupported sentinel.  Symbol cases match on the character
code. -/
def char_to_keycode (c : Char) : Nat × Bool :=
  if 'a' ≤ c ∧ c ≤ 'z' then (KC_A + (c.toNat - 97), false)
  else if 'A' ≤ c ∧ c ≤ 'Z' then (KC_A + (c.toNat - 65), true)
  else if '0' ≤ c ∧ c ≤ '9' then
    (if c = '0' then (KC_0, false) else (KC_1 + (c.toNat - 49), false))
  else
    match c.toNat with
    | 32 => (KC_SPACE, false)
    | 46 => (55, false)
    | 44 => (54, false)
    | 58 => (51, true)
    | 59 => (51, false)
    | 33 => (30, true)
    | 64 => (31, true)
    | 35 => (32, true)
    | 36 => (33, true)
    | 37 => (34, true)
    | 94 => (35, true)
    | 38 => (36, true)
    | 42 => (37, true)
    | 40 => (38, true)
    | 41 => (39, true)
    | 45 => (45, false)
    | 95 => (45, true)
    | 61 => (46, false)
    | 43 => (46, true)
    | 10 => (KC_ENTER, false)
    | 9 => (KC_TAB, false)
    | 91 => (47, false)
    | 93 => (48, false)
    | 123 => (47, true)
    | 125 => (48, true)
    | 92 => (49, false)
    | 124 => (49, true)
    | 39 => (52, false)
    | 34 => (52, true)
    | 96 => (53, false)
    | 126 => (53, true)
    | 47 => (56, false)
    | 63 => (56, true)
    | 60 => (54, true)
    | 62 => (55, true)
    | _ => (0, false)

/-- `struct expansion_work` (without the scheduler handle): the snapshot of
the expansion text, the remaining delete count, the phase flag and the typing
cursor. -/
structure ExpansionWork where
  expanded_text : List Char
  backspace_count : Nat
  is_backspace_phase : Bool
  text_index : Nat
deriving DecidableEq

/-- `expansion_work_handler`, one scheduler callback with all HID sends
succeeding: returns the updated work item, the key actions emitted during the
step, and whether the work rescheduled itself (`false` exactly when the job
goes idle). -/
def expansion_work_handler (cfg : Config) (w : ExpansionWork) :
    ExpansionWork × List KeyAction × Bool :=
  if w.is_backspace_phase then
    if 0 < w.backspace_count then
      ({ w with backspace_count := w.backspace_count - 1 },
       [.press KC_BKSP, .release KC_BKSP], true)
    else
      ({ w with is_backspace_phase := false, text_index := 0 }, [], true)
  else
    let c := w.expanded_text.getD w.text_index nul
    if c ≠ nul ∧ w.text_index < cfg.maxExpandedLen then
      let kc := char_to_keycode c
      let acts :=
        if kc.1 ≠ 0 then
          (if kc.2 then [KeyAction.press KC_LSHIFT] else []) ++
            [KeyAction.press kc.1, KeyAction.release kc.1] ++
            (if kc.2 then [KeyAction.release KC_LSHIFT] else [])
        else []
      ({ w with text_index := w.text_index + 1 }, acts, true)
    else (w, [], false)

/-- Drive the work item through up to `fuel` scheduler callbacks, collecting
the emitted key actions; stops as soon as a step does not reschedule. -/
def run_expansion (cfg : Config) : Nat → ExpansionWork → List KeyAction × ExpansionWork
  | 0, w => ([], w)
  | fuel + 1, w =>
    let step := expansion_work_handler cfg w
    if step.2.2 then
      let rest := run_expansion cfg fuel step.1
      (step.2.1 ++ rest.1, rest.2)
    else (step.2.1, step.1)

/-- `start_expansion`: snapshot the expansion text (bounded `strncpy`) and the
backspace count into a fresh job starting in the backspace phase (the previous
job is cancelled by replacement). -/
def start_expansion (cfg : Config) (expanded_text : List Char)
    (short_len : Nat) : ExpansionWork :=
  { expanded_text := expanded_text.take (cfg.maxExpandedLen - 1),
    backspace_count := short_len, is_backspace_phase := true, text_index := 0 }

/-- `text_expander_keymap_binding_pressed` (the commit): when the buffer is
non-empty and `find_expansion` hits, snapshot the value and the buffer length,
clear the buffer, and schedule a fresh job (`some work`); on a miss clear the
buffer with no job; with an empty buffer do nothing. -/
def text_expander_keymap_binding_pressed (cfg : Config) (d : ExpanderData) :
    ExpanderData × Option ExpansionWork :=
  if 0 < d.current_short.length then
    match find_expansion d d.current_short with
    | some off =>
      let expanded_copy := (readCStr d.text_pool off).take (cfg.maxExpandedLen - 1)
      let len_to_delete := d.current_short.length
      (reset_current_short d, some (start_expansion cfg expanded_copy len_to_delete))
    | none => (reset_current_short d, none)
  else (d, none)

/-! ### Admin operation sequences -/

/-- One admin call (nullable arguments as in the C API). -/
inductive AdminOp where
  | add (key value : Option (List Char))
  | remove (key : Option (List Char))

/-- Run one admin call, keeping only the state. -/
def runAdminOp (cfg : Config) (d : ExpanderData) : AdminOp → ExpanderData
  | .add key value => (zmk_text_expander_add_expansion cfg d key value).1
  | .remove key => (zmk_text_expander_remove_expansion cfg d key).1

/-- Run a sequence of admin calls. -/
def runAdminOps (cfg : Config) (d : ExpanderData) : List AdminOp → ExpanderData
  | [] => d
  | op :: ops => runAdminOps cfg (runAdminOp cfg d op) ops

/-- Number of nodes in the node pool whose terminal flag is set. -/
def countTerminals (d : ExpanderData) : Nat :=
  d.nodes.countP (·.is_terminal)

/-- One successful allocation step of the insert walk: push a fresh node and
link child slot `j` of node `cur` to it (this is the state
`trie_insert_walk` recurses on after a successful `allocate_trie_node`). -/
def allocStep (d : ExpanderData) (cur j : Nat) : ExpanderData :=
  setNode { d with nodes := d.nodes ++ [emptyNode] } cur
    (setChild (getNode { d with nodes := d.nodes ++ [emptyNode] } cur) j
      (some d.nodes.length))

/-! ### Concrete fixtures -/

/-- The documented default configuration
(`MAX_SHORT_LEN = 16`, `MAX_EXPANDED_LEN = 256`, `MAX_EXPANSIONS = 10`). -/
def cfgDef : Config := ⟨16, 256, 10⟩

/-- A small configuration (`MAX_SHORT_LEN = 4`, `MAX_EXPANDED_LEN = 8`,
`MAX_EXPANSIONS = 2`) used for boundary scenarios. -/
def cfgSmall : Config := ⟨4, 8, 2⟩

/-- A pool reference is in bounds (NULL is fine). -/
def childOk (sz : Nat) : Option Nat → Bool
  | none => true
  | some k => decide (k < sz)

/-- A node's child array has the C layout (36 slots) and only in-bounds
references. -/
def nodeOk (sz : Nat) (n : TrieNode) : Bool :=
  decide (n.children.length = 36) && n.children.all (childOk sz)

/-- Pointer validity of a store: the root and every child reference point
into the allocated part of the node pool.  This holds for every state the C
module can reach (pointers are only ever obtained from the allocator). -/
def refsOk (d : ExpanderData) : Bool :=
  childOk d.nodes.length d.root && d.nodes.all (nodeOk d.nodes.length)

/-- A text reference points at a NUL-terminated string lying entirely inside
the allocated prefix of the text pool. -/
def textSlotOk (pool : List Char) (used : Nat) : Option Nat → Bool
  | none => true
  | some off => decide (off + (readCStr pool off).length < used)

/-- Text-arena validity of a store: the pool has its configured size, the
cursor is within capacity, and every node's text reference is a properly
terminated string inside the allocated region.  Again an invariant of every
reachable C state. -/
def textOk (cfg : Config) (d : ExpanderData) : Bool :=
  decide (d.text_pool.length = textCap cfg) &&
    decide (d.text_pool_used ≤ textCap cfg) &&
    d.nodes.all (fun n => textSlotOk d.text_pool d.text_pool_used n.expanded_text)

/-- State after storing `("eml", "a@b.com")` on a freshly initialized store. -/
def dEml : ExpanderData :=
  (zmk_text_expander_add_expansion cfgDef (initData cfgDef)
    (some ['e', 'm', 'l']) (some ['a', '@', 'b', '.', 'c', 'o', 'm'])).1

/-- `dEml` after the user typed `e`, `m`, `l` (listener press events). -/
def dEmlTyped : ExpanderData :=
  let d1 := text_expander_keycode_state_changed_listener cfgDef dEml 8 true
  let d2 := text_expander_keycode_state_changed_listener cfgDef d1 16 true
  text_expander_keycode_state_changed_listener cfgDef d2 15 true

/-- The commit on `dEmlTyped`. -/
def commitEml : ExpanderData × Option ExpansionWork :=
  text_expander_keymap_binding_pressed cfgDef dEmlTyped

/-- The key-action trace the expansion job for `("eml", "a@b.com")` must
emit: three backspace press/release pairs, then the seven characters of
`a@b.com` with the left-shift press/release bracketing the `@` keystroke. -/
def emlTrace : List KeyAction :=
  [.press KC_BKSP, .release KC_BKSP, .press KC_BKSP, .release KC_BKSP,
   .press KC_BKSP, .release KC_BKSP,
   .press 4, .release 4,
   .press KC_LSHIFT, .press 31, .release 31, .release KC_LSHIFT,
   .press 5, .release 5,
   .press 55, .release 55,
   .press 6, .release 6,
   .press 18, .release 18,
   .press 16, .release 16]

/-- A full input buffer under `cfgSmall` (capacity `MAX_SHORT_LEN - 1 = 3`),
reached by pressing `a`, `b`, `c` on a fresh store. -/
def dFullBuf : ExpanderData :=
  let d1 := text_expander_keycode_state_changed_listener cfgSmall (initData cfgSmall) 4 true
  let d2 := text_expander_keycode_state_changed_listener cfgSmall d1 5 true
  text_expander_keycode_state_changed_listener cfgSmall d2 6 true

/-- The character the listener appends for an alphanumeric keycode. -/
def listener_alpha_char (kc : Nat) : Char :=
  if kc ≤ KC_Z then Char.ofNat (97 + (kc - KC_A))
  else if kc ≤ KC_9 then Char.ofNat (49 + (kc - KC_1))
  else '0'

/-- State with the input buffer holding `em` (listener presses on a fresh
default-config store). -/
def dEmBuf : ExpanderData :=
  let d1 := text_expander_keycode_state_changed_listener cfgDef (initData cfgDef) 8 true
  text_expander_keycode_state_changed_listener cfgDef d1 16 true

/-- A one-entry configuration (`MAX_SHORT_LEN = 4`, `MAX_EXPANDED_LEN = 8`,
`MAX_EXPANSIONS = 1`): the text pool holds 8 bytes in total. -/
def cfgTiny : Config := ⟨4, 8, 1⟩

/-- `cfgTiny` store holding the single entry `ab -> xyz` (pool cursor at 4). -/
def dAbX : ExpanderData :=
  (zmk_text_expander_add_expansion cfgTiny (initData cfgTiny)
    (some ['a', 'b']) (some ['x', 'y', 'z'])).1

/-- `cfgSmall` store holding the single entry `ab -> xyz` (pool cursor at 4,
capacity 16). -/
def dAbXS : ExpanderData :=
  (zmk_text_expander_add_expansion cfgSmall (initData cfgSmall)
    (some ['a', 'b']) (some ['x', 'y', 'z'])).1

/-- The `i`-th trie-alphabet character (`0..25` are `a..z`, `26..35` are
`0..9`). -/
def keyChar (i : Nat) : Char :=
  if i < 26 then Char.ofNat (97 + i) else Char.ofNat (48 + (i - 26))

/-- A configuration whose node pool (`100 * 3 = 300` nodes) can hold more
than 256 stored keys and whose text pool (`100 * 6 = 600` bytes) can hold
256 one-byte values. -/
def cfgWrap : Config := ⟨3, 6, 100⟩

/-- 256 adds of pairwise distinct keys (the 36 one-character keys followed
by 220 two-character keys), each storing the value `a`. -/
def wrapOps : List AdminOp :=
  (List.range 36).map (fun i => AdminOp.add (some [keyChar i]) (some ['a'])) ++
  (List.range 220).map (fun j =>
    AdminOp.add (some [keyChar (j / 36), keyChar (j % 36)]) (some ['a']))

/-- The `(expansion_count, terminal-node count)` pair observed before each
admin call and after the last one. -/
def auditTrace (cfg : Config) : List AdminOp → ExpanderData → List (Nat × Nat)
  | [], d => [(d.expansion_count, countTerminals d)]
  | op :: ops, d =>
    (d.expansion_count, countTerminals d) :: auditTrace cfg ops (runAdminOp cfg d op)

end TextExpander

namespace TextExpander

/-! ### List helpers -/

theorem getD_append_left {α : Type} (l l' : List α) (i : Nat) (a : α)
    (h : i < l.length) : (l ++ l').getD i a = l.getD i a := by
  induction l generalizing i with
  | nil => simp at h
  | cons x xs ih =>
    cases i with
    | zero => rfl
    | succ i => simpa using ih i (by simpa using h)

theorem getD_append_last {α : Type} (l : List α) (x a : α) :
    (l ++ [x]).getD l.length a = x := by
  induction l with
  | nil => rfl
  | cons y ys ih => simp [ih]

theorem getD_set_self {α : Type} (l : List α) (i : Nat) (x a : α)
    (h : i < l.length) : (l.set i x).getD i a = x := by
  induction l generalizing i with
  | nil => simp at h
  | cons y ys ih =>
    cases i with
    | zero => rfl
    | succ i => simpa using ih i (by simpa using h)

theorem getD_set_ne {α : Type} (l : List α) (i j : Nat) (x a : α)
    (h : i ≠ j) : (l.set i x).getD j a = l.getD j a := by
  induction l generalizing i j with
  | nil => simp
  | cons y ys ih =>
    cases i with
    | zero => cases j with
      | zero => exact absurd rfl h
      | succ j => rfl
    | succ i =>
      cases j with
      | zero => rfl
      | succ j => simpa using ih i j (by omega)

theorem getD_ge {α : Type} (l : List α) (i : Nat) (a : α)
    (h : l.length ≤ i) : l.getD i a = a := by
  induction l generalizing i with
  | nil => cases i <;> rfl
  | cons y ys ih =>
    cases i with
    | zero => simp at h
    | succ i => simpa using ih i (by simpa using h)

theorem all_of_all_set {α : Type} (p : α → Bool) (l : List α) (i : Nat) (x : α)
    (hall : l.all p = true) (hx : p x = true) : (l.set i x).all p = true := by
  induction l generalizing i with
  | nil => simp
  | cons y ys ih =>
    simp only [List.all_cons, Bool.and_eq_true] at hall
    cases i with
    | zero => simp [hx, hall.2]
    | succ i => simp [hall.1, ih i hall.2]

theorem all_imp {α : Type} (p q : α → Bool) (l : List α)
    (h : ∀ x, p x = true → q x = true) (hall : l.all p = true) :
    l.all q = true := by
  induction l with
  | nil => simp
  | cons y ys ih =>
    simp only [List.all_cons, Bool.and_eq_true] at hall ⊢
    exact ⟨h y hall.1, ih hall.2⟩

theorem all_getD {α : Type} (p : α → Bool) (l : List α) (i : Nat) (a : α)
    (hall : l.all p = true) (ha : p a = true) : p (l.getD i a) = true := by
  induction l generalizing i with
  | nil => cases i <;> exact ha
  | cons y ys ih =>
    simp only [List.all_cons, Bool.and_eq_true] at hall
    cases i with
    | zero => exact hall.1
    | succ i => simpa using ih i hall.2

theorem countP_append {α : Type} (p : α → Bool) (l l' : List α) :
    (l ++ l').countP p = l.countP p + l'.countP p := by
  simp [List.countP_append]

theorem countP_set_same {α : Type} (p : α → Bool) (l : List α) (i : Nat) (x : α)
    (h : p x = p (l.getD i x)) : (l.set i x).countP p = l.countP p := by
  induction l generalizing i with
  | nil => simp
  | cons y ys ih =>
    cases i with
    | zero => simp only [List.set, List.countP_cons]
              simp only [List.getD_cons_zero] at h
              rw [h]
    | succ i => simp only [List.set, List.countP_cons]
                rw [ih i (by simpa using h)]

theorem countP_set_true {α : Type} (p : α → Bool) (l : List α) (i : Nat) (x : α)
    (hi : i < l.length) (hold : p (l.getD i x) = false) (hx : p x = true) :
    (l.set i x).countP p = l.countP p + 1 := by
  induction l generalizing i with
  | nil => simp at hi
  | cons y ys ih =>
    cases i with
    | zero =>
      simp only [List.getD_cons_zero] at hold
      simp [List.countP_cons, hold, hx]
    | succ i =>
      simp only [List.set, List.countP_cons]
      rw [ih i (by simpa using hi) (by simpa using hold)]
      omega

theorem countP_set_false {α : Type} (p : α → Bool) (l : List α) (i : Nat) (x : α)
    (hi : i < l.length) (hold : p (l.getD i x) = true) (hx : p x = false) :
    (l.set i x).countP p + 1 = l.countP p := by
  induction l generalizing i with
  | nil => simp at hi
  | cons y ys ih =>
    cases i with
    | zero =>
      simp only [List.getD_cons_zero] at hold
      simp [List.countP_cons, hold, hx]
    | succ i =>
      simp only [List.set, List.countP_cons]
      rw [← ih i (by simpa using hi) (by simpa using hold)]
      omega

theorem countP_pos_of_true {α : Type} (p : α → Bool) (l : List α) (i : Nat)
    (a : α) (hi : i < l.length) (h : p (l.getD i a) = true) :
    1 ≤ l.countP p := by
  induction l generalizing i with
  | nil => simp at hi
  | cons y ys ih =>
    cases i with
    | zero =>
      simp only [List.getD_cons_zero] at h
      simp [List.countP_cons, h]
    | succ i =>
      have := ih i (by simpa using hi) (by simpa using h)
      simp only [List.countP_cons]
      omega

/-- Reading any position of an all-`none` children list yields `none`. -/
theorem getD_replicate_none {α : Type} (n j : Nat) :
    (List.replicate n (none : Option α)).getD j none = none := by
  induction n generalizing j with
  | zero => simp
  | succ n ih => cases j <;> simp [List.replicate, ih]

/-! ### C-string helpers -/

theorem writeCStr_length (pool : List Char) (off : Nat) (v : List Char) :
    (writeCStr pool off v).length = pool.length := by
  induction v generalizing pool off with
  | nil => simp [writeCStr]
  | cons c cs ih => simp [writeCStr, ih]

theorem writeCStr_getD_lt (pool : List Char) (off : Nat) (v : List Char)
    (j : Nat) (h : j < off) (a : Char) :
    (writeCStr pool off v).getD j a = pool.getD j a := by
  induction v generalizing pool off with
  | nil => exact getD_set_ne pool off j nul a (by omega)
  | cons c cs ih =>
    rw [writeCStr, ih (pool.set off c) (off + 1) (by omega)]
    exact getD_set_ne pool off j c a (by omega)

theorem drop_eq_getD_cons (l : List Char) (i : Nat) (h : i < l.length) :
    l.drop i = l.getD i nul :: l.drop (i + 1) := by
  induction l generalizing i with
  | nil => simp at h
  | cons y ys ih =>
    cases i with
    | zero => rfl
    | succ i => simpa using ih i (by simpa using h)

theorem readCStr_writeCStr (pool : List Char) (off : Nat) (v : List Char)
    (hnul : nul ∉ v) (hlt : off + v.length < pool.length) :
    readCStr (writeCStr pool off v) off = v := by
  induction v generalizing pool off with
  | nil =>
    rw [writeCStr, readCStr, drop_eq_getD_cons _ off (by simpa using hlt),
      getD_set_self pool off nul nul (by simpa using hlt)]
    simp [readCStrGo]
  | cons c cs ih =>
    have hc : c ≠ nul := fun h => hnul (h ▸ List.mem_cons_self c cs)
    have hoff : off < pool.length := by simp at hlt; omega
    have hlen : (writeCStr (pool.set off c) (off + 1) cs).length = pool.length := by
      simp [writeCStr_length]
    rw [writeCStr, readCStr, drop_eq_getD_cons _ off (by rw [hlen]; exact hoff)]
    rw [writeCStr_getD_lt (pool.set off c) (off + 1) cs off (by omega) nul,
      getD_set_self pool off c nul hoff]
    have ihh := ih (pool.set off c) (off + 1)
      (fun h => hnul (List.mem_cons_of_mem c h)) (by simp; simpa [Nat.add_assoc, Nat.add_comm 1 cs.length] using hlt)
    rw [readCStr] at ihh
    simp [readCStrGo, hc, ihh]

/-! ### Validity extraction -/

theorem getD_irrel {α : Type} (l : List α) (i : Nat) (a b : α)
    (h : i < l.length) : l.getD i a = l.getD i b := by
  induction l generalizing i with
  | nil => simp at h
  | cons y ys ih =>
    cases i with
    | zero => rfl
    | succ i => simpa using ih i (by simpa using h)

theorem all_replicate {α : Type} (p : α → Bool) (n : Nat) (a : α)
    (h : p a = true) : (List.replicate n a).all p = true := by
  induction n with
  | zero => simp
  | succ n ih => simp [List.replicate, h, ih]

theorem nodeOk_emptyNode (sz : Nat) : nodeOk sz emptyNode = true := by
  simp only [nodeOk, emptyNode, Bool.and_eq_true, decide_eq_true_eq]
  exact ⟨by simp, all_replicate _ _ _ rfl⟩

theorem childAt_none_of_ge (d : ExpanderData) (i j : Nat)
    (h : d.nodes.length ≤ i) : childAt d i j = none := by
  unfold childAt getNode
  rw [getD_ge _ _ _ h]
  exact getD_replicate_none 36 j

theorem refsOk_root_lt (d : ExpanderData) (r : Nat) (href : refsOk d = true)
    (hr : d.root = some r) : r < d.nodes.length := by
  unfold refsOk at href
  rw [hr] at href
  simp only [Bool.and_eq_true, childOk, decide_eq_true_eq] at href
  exact href.1

theorem refsOk_child_lt (d : ExpanderData) (i j v : Nat) (href : refsOk d = true)
    (h : childAt d i j = some v) : v < d.nodes.length := by
  by_cases hi : i < d.nodes.length
  · unfold refsOk at href
    simp only [Bool.and_eq_true] at href
    have hnode : nodeOk d.nodes.length (getNode d i) = true := by
      unfold getNode
      exact all_getD _ _ _ _ href.2 (nodeOk_emptyNode _)
    simp only [nodeOk, Bool.and_eq_true] at hnode
    have hch : childOk d.nodes.length ((getNode d i).children.getD j none) = true :=
      all_getD _ _ _ _ hnode.2 rfl
    rw [childAt] at h
    rw [h] at hch
    simpa [childOk] using hch
  · rw [childAt_none_of_ge d i j (by omega)] at h
    exact absurd h (by simp)

theorem set_ge_eq {α : Type} (l : List α) (i : Nat) (x : α)
    (h : l.length ≤ i) : l.set i x = l := by
  induction l generalizing i with
  | nil => simp
  | cons y ys ih =>
    cases i with
    | zero => simp at h
    | succ i => simpa using ih i (by simpa using h)

theorem char_index_lt_36 (c : Char) : (char_to_trie_index c).toNat < 36 := by
  unfold char_to_trie_index
  by_cases h1 : 'a' ≤ c ∧ c ≤ 'z'
  · have h2 : c.toNat ≤ 122 := h1.2
    simp only [h1, if_true, and_true]
    omega
  · by_cases h2 : '0' ≤ c ∧ c ≤ '9'
    · have h3 : c.toNat ≤ 57 := h2.2
      have h4 : 48 ≤ c.toNat := h2.1
      simp only [h1, h2, if_false, if_true]
      omega
    · simp [h1, h2]

/-! ### The allocation step of the insert walk -/

theorem getNode_push (d : ExpanderData) (i : Nat) :
    getNode { d with nodes := d.nodes ++ [emptyNode] } i = getNode d i := by
  unfold getNode
  by_cases hi : i < d.nodes.length
  · exact getD_append_left _ _ _ _ hi
  · by_cases hie : i = d.nodes.length
    · show (d.nodes ++ [emptyNode]).getD i emptyNode = d.nodes.getD i emptyNode
      rw [hie, getD_append_last, getD_ge _ _ _ (le_refl _)]
    · rw [getD_ge _ _ _ (by simp; omega), getD_ge _ _ _ (by omega)]

theorem allocStep_length (d : ExpanderData) (cur j : Nat) :
    (allocStep d cur j).nodes.length = d.nodes.length + 1 := by
  simp [allocStep, setNode]

theorem allocStep_getNode (d : ExpanderData) (cur j i : Nat) :
    getNode (allocStep d cur j) i =
      if i = cur then
        (if cur < d.nodes.length + 1 then
          setChild (getNode d cur) j (some d.nodes.length)
        else getNode d cur)
      else if i = d.nodes.length then emptyNode
      else getNode d i := by
  unfold allocStep setNode
  by_cases hic : i = cur
  · subst hic
    by_cases hi : i < d.nodes.length + 1
    · simp only [hi, if_true, if_pos rfl]
      show (((d.nodes ++ [emptyNode]).set i _).getD i emptyNode) = _
      rw [getD_set_self _ _ _ _ (by simpa using hi), getNode_push]
    · simp only [hi, if_false, if_pos rfl]
      show (((d.nodes ++ [emptyNode]).set i _).getD i emptyNode) = _
      rw [set_ge_eq _ _ _ (by simp; omega)]
      exact getNode_push d i
  · simp only [hic, if_false]
    show (((d.nodes ++ [emptyNode]).set cur _).getD i emptyNode) = _
    rw [getD_set_ne _ _ _ _ _ (fun h => hic h.symm)]
    by_cases hie : i = d.nodes.length
    · rw [hie, getD_append_last]
      simp [hie]
    · simp only [hie, if_false]
      exact getNode_push d i

theorem allocStep_term_text (d : ExpanderData) (cur j i : Nat) :
    (getNode (allocStep d cur j) i).is_terminal = (getNode d i).is_terminal ∧
      (getNode (allocStep d cur j) i).expanded_text = (getNode d i).expanded_text := by
  rw [allocStep_getNode]
  by_cases hic : i = cur
  · subst hic
    by_cases hi : i < d.nodes.length + 1 <;> simp [hi, setChild]
  · by_cases hie : i = d.nodes.length
    · subst hie
      unfold getNode
      rw [getD_ge _ _ _ (le_refl _)]
      simp [hic]
    · simp [hic, hie]

theorem allocStep_childAt_mono (d : ExpanderData) (cur j : Nat)
    (hch : childAt d cur j = none) (i j' v : Nat)
    (h : childAt d i j' = some v) : childAt (allocStep d cur j) i j' = some v := by
  unfold childAt at h ⊢
  rw [allocStep_getNode]
  by_cases hic : i = cur
  · subst hic
    by_cases hi : i < d.nodes.length + 1
    · simp only [hi, if_true, if_pos rfl, setChild]
      by_cases hjj : j = j'
      · subst hjj
        unfold childAt at hch
        rw [hch] at h
        exact absurd h (by simp)
      · rw [getD_set_ne _ _ _ _ _ hjj]
        exact h
    · simp only [hi, if_false, if_pos rfl]
      exact h
  · by_cases hie : i = d.nodes.length
    · subst hie
      have : childAt d d.nodes.length j' = none := childAt_none_of_ge d _ _ (le_refl _)
      unfold childAt at this
      rw [this] at h
      exact absurd h (by simp)
    · simp only [hic, hie, if_false]
      exact h

theorem allocStep_childAt_self (d : ExpanderData) (cur j : Nat)
    (hcur : cur < d.nodes.length) (hj : j < (getNode d cur).children.length) :
    childAt (allocStep d cur j) cur j = some d.nodes.length := by
  unfold childAt
  rw [allocStep_getNode]
  simp only [if_pos rfl, if_pos (by omega : cur < d.nodes.length + 1), setChild]
  exact getD_set_self _ _ _ _ hj

theorem allocStep_childAt_fresh (d : ExpanderData) (cur j : Nat)
    (hcur : cur ≠ d.nodes.length) (j' : Nat) :
    childAt (allocStep d cur j) d.nodes.length j' = none := by
  have hne : ¬ (d.nodes.length = cur) := fun h => hcur h.symm
  unfold childAt
  rw [allocStep_getNode, if_neg hne, if_pos rfl]
  exact getD_replicate_none 36 j'

theorem allocStep_countTerminals (d : ExpanderData) (cur j : Nat) :
    countTerminals (allocStep d cur j) = countTerminals d := by
  unfold countTerminals allocStep setNode
  simp only
  by_cases hi : cur < d.nodes.length + 1
  · rw [countP_set_same _ _ _ _ ?_, countP_append]
    · simp [emptyNode]
    · show _ = ((d.nodes ++ [emptyNode]).getD cur _).is_terminal
      rw [getD_irrel _ _ _ emptyNode (by simpa using hi)]
      rfl
  · rw [set_ge_eq _ _ _ (by simp; omega), countP_append]
    simp [emptyNode]

theorem refsOk_allocStep (d : ExpanderData) (cur j : Nat)
    (href : refsOk d = true) : refsOk (allocStep d cur j) = true := by
  unfold refsOk at href ⊢
  simp only [Bool.and_eq_true] at href ⊢
  rw [allocStep_length]
  constructor
  · rcases hroot : d.root with _ | r
    · show childOk _ ((allocStep d cur j).root) = true
      have : (allocStep d cur j).root = d.root := rfl
      rw [this, hroot]
      rfl
    · have hlt := refsOk_root_lt d r (by unfold refsOk; simp [href.1, href.2]) hroot
      show childOk _ ((allocStep d cur j).root) = true
      have : (allocStep d cur j).root = d.root := rfl
      rw [this, hroot]
      simp only [childOk, decide_eq_true_eq]
      omega
  · have hmono : ∀ n, nodeOk d.nodes.length n = true →
        nodeOk (d.nodes.length + 1) n = true := by
      intro n hn
      simp only [nodeOk, Bool.and_eq_true] at hn ⊢
      refine ⟨hn.1, all_imp _ _ _ ?_ hn.2⟩
      intro o ho
      cases o with
      | none => rfl
      | some k => simp only [childOk, decide_eq_true_eq] at ho ⊢; omega
    have hall1 : (d.nodes ++ [emptyNode]).all (nodeOk (d.nodes.length + 1)) = true := by
      rw [List.all_append]
      simp only [Bool.and_eq_true]
      exact ⟨all_imp _ _ _ hmono href.2, by simp [nodeOk_emptyNode]⟩
    show ((d.nodes ++ [emptyNode]).set cur _).all _ = true
    apply all_of_all_set _ _ _ _ hall1
    have hbase : nodeOk (d.nodes.length + 1) (getNode d cur) = true := by
      by_cases hcur : cur < d.nodes.length
      · have h := all_getD (nodeOk (d.nodes.length + 1)) (d.nodes ++ [emptyNode])
          cur emptyNode hall1 (nodeOk_emptyNode _)
        unfold getNode
        rwa [getD_append_left _ _ _ _ hcur] at h
      · unfold getNode
        rw [getD_ge _ _ _ (by omega)]
        exact nodeOk_emptyNode _
    have hgp : getNode { d with nodes := d.nodes ++ [emptyNode] } cur = getNode d cur :=
      getNode_push d cur
    rw [hgp]
    simp only [nodeOk, setChild, Bool.and_eq_true] at hbase ⊢
    refine ⟨by simpa using hbase.1, ?_⟩
    apply all_of_all_set _ _ _ _ hbase.2
    simp [childOk]

/-! ### Step equations for the insert walk -/

theorem insert_walk_nil (cfg : Config) (d : ExpanderData) (cur : Nat) :
    trie_insert_walk cfg d cur [] = (d, .ok cur) := rfl

theorem insert_walk_cons_invalid (cfg : Config) (d : ExpanderData) (cur : Nat)
    (c : Char) (cs : List Char) (hidx : char_to_trie_index c = -1) :
    trie_insert_walk cfg d cur (c :: cs) = (d, .error (-EINVAL)) := by
  rw [trie_insert_walk]
  simp [hidx]

theorem insert_walk_cons_child (cfg : Config) (d : ExpanderData) (cur : Nat)
    (c : Char) (cs : List Char) (child : Nat)
    (hidx : ¬ char_to_trie_index c = -1)
    (hch : childAt d cur (char_to_trie_index c).toNat = some child) :
    trie_insert_walk cfg d cur (c :: cs) = trie_insert_walk cfg d child cs := by
  rw [trie_insert_walk]
  simp [hidx, hch]

theorem insert_walk_cons_nomem (cfg : Config) (d : ExpanderData) (cur : Nat)
    (c : Char) (cs : List Char) (hidx : ¬ char_to_trie_index c = -1)
    (hch : childAt d cur (char_to_trie_index c).toNat = none)
    (hcap : nodeCap cfg ≤ d.nodes.length) :
    trie_insert_walk cfg d cur (c :: cs) = (d, .error (-ENOMEM)) := by
  rw [trie_insert_walk]
  simp [hidx, hch, allocate_trie_node, hcap]

theorem insert_walk_cons_alloc (cfg : Config) (d : ExpanderData) (cur : Nat)
    (c : Char) (cs : List Char) (hidx : ¬ char_to_trie_index c = -1)
    (hch : childAt d cur (char_to_trie_index c).toNat = none)
    (hcap : ¬ nodeCap cfg ≤ d.nodes.length) :
    trie_insert_walk cfg d cur (c :: cs) =
      trie_insert_walk cfg (allocStep d cur (char_to_trie_index c).toNat)
        d.nodes.length cs := by
  rw [trie_insert_walk]
  simp only [hidx, if_false, hch, allocate_trie_node, hcap]
  rfl

/-! ### Walk invariants -/

theorem insert_walk_state (cfg : Config) (cs : List Char) :
    ∀ (d : ExpanderData) (cur : Nat),
    (trie_insert_walk cfg d cur cs).1.root = d.root ∧
    (trie_insert_walk cfg d cur cs).1.current_short = d.current_short ∧
    (trie_insert_walk cfg d cur cs).1.expansion_count = d.expansion_count ∧
    (trie_insert_walk cfg d cur cs).1.text_pool = d.text_pool ∧
    (trie_insert_walk cfg d cur cs).1.text_pool_used = d.text_pool_used ∧
    d.nodes.length ≤ (trie_insert_walk cfg d cur cs).1.nodes.length ∧
    countTerminals (trie_insert_walk cfg d cur cs).1 = countTerminals d := by
  induction cs with
  | nil =>
    intro d cur
    exact ⟨rfl, rfl, rfl, rfl, rfl, le_refl _, rfl⟩
  | cons c cs ih =>
    intro d cur
    by_cases hidx : char_to_trie_index c = -1
    · rw [insert_walk_cons_invalid cfg d cur c cs hidx]
      exact ⟨rfl, rfl, rfl, rfl, rfl, le_refl _, rfl⟩
    · rcases hch : childAt d cur (char_to_trie_index c).toNat with _ | child
      · by_cases hcap : nodeCap cfg ≤ d.nodes.length
        · rw [insert_walk_cons_nomem cfg d cur c cs hidx hch hcap]
          exact ⟨rfl, rfl, rfl, rfl, rfl, le_refl _, rfl⟩
        · rw [insert_walk_cons_alloc cfg d cur c cs hidx hch hcap]
          obtain ⟨r1, r2, r3, r4, r5, r6, r7⟩ :=
            ih (allocStep d cur (char_to_trie_index c).toNat) d.nodes.length
          rw [allocStep_length] at r6
          exact ⟨r1, r2, r3, r4, r5, by omega,
            r7.trans (allocStep_countTerminals _ _ _)⟩
      · rw [insert_walk_cons_child cfg d cur c cs child hidx hch]
        exact ih d child

theorem insert_walk_nodes (cfg : Config) (cs : List Char) :
    ∀ (d : ExpanderData) (cur : Nat),
    (∀ i, i < d.nodes.length →
      (getNode (trie_insert_walk cfg d cur cs).1 i).is_terminal
          = (getNode d i).is_terminal ∧
        (getNode (trie_insert_walk cfg d cur cs).1 i).expanded_text
          = (getNode d i).expanded_text) ∧
    (∀ i, d.nodes.length ≤ i →
      (getNode (trie_insert_walk cfg d cur cs).1 i).is_terminal = false ∧
        (getNode (trie_insert_walk cfg d cur cs).1 i).expanded_text = none) ∧
    (∀ i j v, childAt d i j = some v →
      childAt (trie_insert_walk cfg d cur cs).1 i j = some v) := by
  induction cs with
  | nil =>
    intro d cur
    refine ⟨fun i _ => ⟨rfl, rfl⟩, fun i hi => ?_, fun i j v h => h⟩
    show (getNode d i).is_terminal = false ∧ (getNode d i).expanded_text = none
    unfold getNode
    rw [getD_ge _ _ _ hi]
    exact ⟨rfl, rfl⟩
  | cons c cs ih =>
    intro d cur
    by_cases hidx : char_to_trie_index c = -1
    · rw [insert_walk_cons_invalid cfg d cur c cs hidx]
      refine ⟨fun i _ => ⟨rfl, rfl⟩, fun i hi => ?_, fun i j v h => h⟩
      show (getNode d i).is_terminal = false ∧ (getNode d i).expanded_text = none
      unfold getNode
      rw [getD_ge _ _ _ hi]
      exact ⟨rfl, rfl⟩
    · rcases hch : childAt d cur (char_to_trie_index c).toNat with _ | child
      · by_cases hcap : nodeCap cfg ≤ d.nodes.length
        · rw [insert_walk_cons_nomem cfg d cur c cs hidx hch hcap]
          refine ⟨fun i _ => ⟨rfl, rfl⟩, fun i hi => ?_, fun i j v h => h⟩
          show (getNode d i).is_terminal = false ∧ (getNode d i).expanded_text = none
          unfold getNode
          rw [getD_ge _ _ _ hi]
          exact ⟨rfl, rfl⟩
        · rw [insert_walk_cons_alloc cfg d cur c cs hidx hch hcap]
          obtain ⟨p1, p2, p3⟩ :=
            ih (allocStep d cur (char_to_trie_index c).toNat) d.nodes.length
          refine ⟨fun i hi => ?_, fun i hi => ?_, fun i j v h => ?_⟩
          · have h1 := p1 i (by rw [allocStep_length]; omega)
            have h2 := allocStep_term_text d cur (char_to_trie_index c).toNat i
            exact ⟨h1.1.trans h2.1, h1.2.trans h2.2⟩
          · by_cases hlt : i < d.nodes.length + 1
            · have h1 := p1 i (by rw [allocStep_length]; omega)
              have h2 := allocStep_term_text d cur (char_to_trie_index c).toNat i
              have h3 : (getNode d i).is_terminal = false ∧
                  (getNode d i).expanded_text = none := by
                unfold getNode
                rw [getD_ge _ _ _ hi]
                exact ⟨rfl, rfl⟩
              exact ⟨h1.1.trans (h2.1.trans h3.1), h1.2.trans (h2.2.trans h3.2)⟩
            · exact p2 i (by rw [allocStep_length]; omega)
          · exact p3 i j v
              (allocStep_childAt_mono d cur (char_to_trie_index c).toNat hch i j v h)
      · rw [insert_walk_cons_child cfg d cur c cs child hidx hch]
        exact ih d child

theorem insert_walk_error (cfg : Config) (cs : List Char) :
    ∀ (d : ExpanderData) (cur : Nat) (e : Int),
    (trie_insert_walk cfg d cur cs).2 = .error e → e = -EINVAL ∨ e = -ENOMEM := by
  induction cs with
  | nil =>
    intro d cur e he
    rw [insert_walk_nil] at he
    exact absurd he (by simp)
  | cons c cs ih =>
    intro d cur e he
    by_cases hidx : char_to_trie_index c = -1
    · rw [insert_walk_cons_invalid cfg d cur c cs hidx] at he
      simp only at he
      injection he with he
      exact Or.inl he.symm
    · rcases hch : childAt d cur (char_to_trie_index c).toNat with _ | child
      · by_cases hcap : nodeCap cfg ≤ d.nodes.length
        · rw [insert_walk_cons_nomem cfg d cur c cs hidx hch hcap] at he
          simp only at he
          injection he with he
          exact Or.inr he.symm
        · rw [insert_walk_cons_alloc cfg d cur c cs hidx hch hcap] at he
          exact ih _ _ e he
      · rw [insert_walk_cons_child cfg d cur c cs child hidx hch] at he
        exact ih d child e he

theorem insert_walk_refs (cfg : Config) (cs : List Char) :
    ∀ (d : ExpanderData) (cur : Nat), refsOk d = true → cur < d.nodes.length →
    refsOk (trie_insert_walk cfg d cur cs).1 = true ∧
    (∀ n, (trie_insert_walk cfg d cur cs).2 = .ok n →
      n < (trie_insert_walk cfg d cur cs).1.nodes.length) := by
  induction cs with
  | nil =>
    intro d cur href hcur
    rw [insert_walk_nil]
    refine ⟨href, fun n hn => ?_⟩
    simp only at hn
    injection hn with hn
    show n < d.nodes.length
    omega
  | cons c cs ih =>
    intro d cur href hcur
    by_cases hidx : char_to_trie_index c = -1
    · rw [insert_walk_cons_invalid cfg d cur c cs hidx]
      exact ⟨href, fun n hn => absurd hn (by simp)⟩
    · rcases hch : childAt d cur (char_to_trie_index c).toNat with _ | child
      · by_cases hcap : nodeCap cfg ≤ d.nodes.length
        · rw [insert_walk_cons_nomem cfg d cur c cs hidx hch hcap]
          exact ⟨href, fun n hn => absurd hn (by simp)⟩
        · rw [insert_walk_cons_alloc cfg d cur c cs hidx hch hcap]
          exact ih (allocStep d cur (char_to_trie_index c).toNat) d.nodes.length
            (refsOk_allocStep d cur _ href)
            (by rw [allocStep_length]; omega)
      · rw [insert_walk_cons_child cfg d cur c cs child hidx hch]
        exact ih d child href (refsOk_child_lt d cur _ child href hch)

theorem children_length_36 (d : ExpanderData) (i : Nat) (href : refsOk d = true) :
    (getNode d i).children.length = 36 := by
  by_cases hi : i < d.nodes.length
  · unfold refsOk at href
    simp only [Bool.and_eq_true] at href
    have hnode : nodeOk d.nodes.length (getNode d i) = true := by
      unfold getNode
      exact all_getD _ _ _ _ href.2 (nodeOk_emptyNode _)
    simp only [nodeOk, Bool.and_eq_true, decide_eq_true_eq] at hnode
    exact hnode.1
  · unfold getNode
    rw [getD_ge _ _ _ (by omega)]
    simp [emptyNode]

theorem getNode_set_self (d : ExpanderData) (i : Nat) (nod : TrieNode)
    (h : i < d.nodes.length) : getNode (setNode d i nod) i = nod :=
  getD_set_self _ _ _ _ h

theorem getNode_set_ne (d : ExpanderData) (i j : Nat) (nod : TrieNode)
    (h : i ≠ j) : getNode (setNode d i nod) j = getNode d j :=
  getD_set_ne _ _ _ _ _ h

theorem countTerminals_set_same (d : ExpanderData) (n : Nat) (nod : TrieNode)
    (h : nod.is_terminal = (getNode d n).is_terminal) :
    countTerminals (setNode d n nod) = countTerminals d := by
  unfold countTerminals setNode
  by_cases hn : n < d.nodes.length
  · refine countP_set_same _ _ _ _ ?_
    show nod.is_terminal = (d.nodes.getD n nod).is_terminal
    rw [h]
    unfold getNode
    rw [getD_irrel _ _ emptyNode nod hn]
  · rw [set_ge_eq _ _ _ (by omega)]

theorem countTerminals_set_true (d : ExpanderData) (n : Nat) (nod : TrieNode)
    (hn : n < d.nodes.length) (hold : (getNode d n).is_terminal = false)
    (hnew : nod.is_terminal = true) :
    countTerminals (setNode d n nod) = countTerminals d + 1 := by
  unfold countTerminals setNode
  refine countP_set_true _ _ _ _ hn ?_ hnew
  show (d.nodes.getD n nod).is_terminal = false
  unfold getNode at hold
  rwa [getD_irrel _ _ nod emptyNode hn]

theorem countTerminals_set_false (d : ExpanderData) (n : Nat) (nod : TrieNode)
    (hn : n < d.nodes.length) (hold : (getNode d n).is_terminal = true)
    (hnew : nod.is_terminal = false) :
    countTerminals (setNode d n nod) + 1 = countTerminals d := by
  unfold countTerminals setNode
  refine countP_set_false _ _ _ _ hn ?_ hnew
  show (d.nodes.getD n nod).is_terminal = true
  unfold getNode at hold
  rwa [getD_irrel _ _ nod emptyNode hn]

theorem countTerminals_pos (d : ExpanderData) (n : Nat)
    (hn : n < d.nodes.length) (hterm : (getNode d n).is_terminal = true) :
    1 ≤ countTerminals d := by
  unfold countTerminals
  refine countP_pos_of_true _ _ n emptyNode hn ?_
  exact hterm

theorem refsOk_set_same_children (d : ExpanderData) (i : Nat) (nod : TrieNode)
    (href : refsOk d = true) (hch : nod.children = (getNode d i).children) :
    refsOk (setNode d i nod) = true := by
  by_cases hi : i < d.nodes.length
  · unfold refsOk at href ⊢
    simp only [Bool.and_eq_true] at href ⊢
    have hlen : (d.nodes.set i nod).length = d.nodes.length := by simp
    constructor
    · show childOk (d.nodes.set i nod).length d.root = true
      rw [hlen]
      exact href.1
    · show (d.nodes.set i nod).all (nodeOk (d.nodes.set i nod).length) = true
      rw [hlen]
      apply all_of_all_set _ _ _ _ href.2
      have hbase : nodeOk d.nodes.length (getNode d i) = true := by
        unfold getNode
        exact all_getD _ _ _ _ href.2 (nodeOk_emptyNode _)
      simp only [nodeOk, Bool.and_eq_true] at hbase ⊢
      rw [hch]
      exact hbase
  · unfold setNode
    rw [set_ge_eq _ _ _ (by omega)]
    exact href

/-! ### Walk-path correspondence -/

theorem walkPath_congr (d1 d2 : ExpanderData)
    (h : ∀ i j, childAt d1 i j = childAt d2 i j) :
    ∀ (cs : List Char) (cur : Nat), walkPath d1 cur cs = walkPath d2 cur cs := by
  intro cs
  induction cs with
  | nil => intro cur; rfl
  | cons c cs ih =>
    intro cur
    simp only [walkPath]
    by_cases hidx : char_to_trie_index c = -1
    · simp [hidx]
    · simp only [hidx, if_false]
      rw [h cur (char_to_trie_index c).toNat]
      rcases childAt d2 cur (char_to_trie_index c).toNat with _ | child
      · rfl
      · exact ih child

theorem insert_walk_of_walkPath (cfg : Config) (cs : List Char) :
    ∀ (d : ExpanderData) (cur n : Nat), walkPath d cur cs = some n →
    trie_insert_walk cfg d cur cs = (d, .ok n) := by
  induction cs with
  | nil =>
    intro d cur n h
    simp only [walkPath] at h
    injection h with h
    rw [insert_walk_nil, h]
  | cons c cs ih =>
    intro d cur n h
    simp only [walkPath] at h
    by_cases hidx : char_to_trie_index c = -1
    · rw [if_pos hidx] at h
      exact absurd h (by simp)
    · rw [if_neg hidx] at h
      rcases hch : childAt d cur (char_to_trie_index c).toNat with _ | child
      · rw [hch] at h
        exact absurd h (by simp)
      · rw [hch] at h
        rw [insert_walk_cons_child cfg d cur c cs child hidx hch]
        exact ih d child n h

theorem insert_walk_path (cfg : Config) (cs : List Char) :
    ∀ (d : ExpanderData) (cur : Nat), refsOk d = true → cur < d.nodes.length →
    ∀ n, (trie_insert_walk cfg d cur cs).2 = .ok n →
    walkPath (trie_insert_walk cfg d cur cs).1 cur cs = some n := by
  induction cs with
  | nil =>
    intro d cur _ _ n hn
    rw [insert_walk_nil] at hn ⊢
    simp only at hn
    injection hn with hn
    show some cur = some n
    rw [hn]
  | cons c cs ih =>
    intro d cur href hcur n hn
    by_cases hidx : char_to_trie_index c = -1
    · rw [insert_walk_cons_invalid cfg d cur c cs hidx] at hn
      exact absurd hn (by simp)
    · rcases hch : childAt d cur (char_to_trie_index c).toNat with _ | child
      · by_cases hcap : nodeCap cfg ≤ d.nodes.length
        · rw [insert_walk_cons_nomem cfg d cur c cs hidx hch hcap] at hn
          exact absurd hn (by simp)
        · rw [insert_walk_cons_alloc cfg d cur c cs hidx hch hcap] at hn ⊢
          have href2 := refsOk_allocStep d cur (char_to_trie_index c).toNat href
          have hflt : d.nodes.length <
              (allocStep d cur (char_to_trie_index c).toNat).nodes.length := by
            rw [allocStep_length]
            omega
          have ihh := ih (allocStep d cur (char_to_trie_index c).toNat)
            d.nodes.length href2 hflt n hn
          have hc1 : childAt (allocStep d cur (char_to_trie_index c).toNat) cur
              (char_to_trie_index c).toNat = some d.nodes.length :=
            allocStep_childAt_self d cur _ hcur
              (by rw [children_length_36 d cur href]; exact char_index_lt_36 c)
          have hc2 := (insert_walk_nodes cfg cs
            (allocStep d cur (char_to_trie_index c).toNat) d.nodes.length).2.2
            cur (char_to_trie_index c).toNat d.nodes.length hc1
          simp only [walkPath, hidx, if_false, hc2]
          exact ihh
      · rw [insert_walk_cons_child cfg d cur c cs child hidx hch] at hn ⊢
        have hclt := refsOk_child_lt d cur _ child href hch
        have ihh := ih d child href hclt n hn
        have hc2 := (insert_walk_nodes cfg cs d child).2.2
          cur (char_to_trie_index c).toNat child hch
        simp only [walkPath, hidx, if_false, hc2]
        exact ihh

theorem insert_walk_dichotomy (cfg : Config) (cs : List Char) :
    ∀ (d : ExpanderData) (cur : Nat), refsOk d = true → cur < d.nodes.length →
    ∀ n, (trie_insert_walk cfg d cur cs).2 = .ok n →
    ((trie_insert_walk cfg d cur cs).1 = d ∧ walkPath d cur cs = some n) ∨
    (d.nodes.length ≤ n ∧ walkPath d cur cs = none) := by
  induction cs with
  | nil =>
    intro d cur _ _ n hn
    rw [insert_walk_nil] at hn ⊢
    simp only at hn
    injection hn with hn
    left
    exact ⟨rfl, by show some cur = some n; rw [hn]⟩
  | cons c cs ih =>
    intro d cur href hcur n hn
    by_cases hidx : char_to_trie_index c = -1
    · rw [insert_walk_cons_invalid cfg d cur c cs hidx] at hn
      exact absurd hn (by simp)
    · rcases hch : childAt d cur (char_to_trie_index c).toNat with _ | child
      · by_cases hcap : nodeCap cfg ≤ d.nodes.length
        · rw [insert_walk_cons_nomem cfg d cur c cs hidx hch hcap] at hn
          exact absurd hn (by simp)
        · rw [insert_walk_cons_alloc cfg d cur c cs hidx hch hcap] at hn ⊢
          have href2 := refsOk_allocStep d cur (char_to_trie_index c).toNat href
          have hflt : d.nodes.length <
              (allocStep d cur (char_to_trie_index c).toNat).nodes.length := by
            rw [allocStep_length]
            omega
          have hwnone : walkPath d cur (c :: cs) = none := by
            simp [walkPath, hidx, hch]
          rcases ih (allocStep d cur (char_to_trie_index c).toNat)
              d.nodes.length href2 hflt n hn with ⟨heq, hwp⟩ | ⟨hge, hwp⟩
          · cases cs with
            | nil =>
              simp only [walkPath] at hwp
              injection hwp with hwp
              exact Or.inr ⟨by omega, hwnone⟩
            | cons c2 cs2 =>
              simp only [walkPath] at hwp
              by_cases hidx2 : char_to_trie_index c2 = -1
              · rw [if_pos hidx2] at hwp
                exact absurd hwp (by simp)
              · rw [if_neg hidx2] at hwp
                rw [allocStep_childAt_fresh d cur (char_to_trie_index c).toNat
                  (by omega) (char_to_trie_index c2).toNat] at hwp
                exact absurd hwp (by simp)
          · rw [allocStep_length] at hge
            exact Or.inr ⟨by omega, hwnone⟩
      · rw [insert_walk_cons_child cfg d cur c cs child hidx hch] at hn ⊢
        have hclt := refsOk_child_lt d cur _ child href hch
        have hw : ∀ o, walkPath d child cs = o → walkPath d cur (c :: cs) = o := by
          intro o ho
          simp [walkPath, hidx, hch, ho]
        rcases ih d child href hclt n hn with ⟨heq, hwp⟩ | ⟨hge, hwp⟩
        · exact Or.inl ⟨heq, hw (some n) hwp⟩
        · exact Or.inr ⟨hge, hw none hwp⟩

/-! ### The store phase of the insert -/

theorem insert_store_nomem (cfg : Config) (d : ExpanderData) (n : Nat)
    (value : List Char)
    (hcap : textCap cfg < d.text_pool_used + (value.length + 1)) :
    trie_insert_store cfg d n value =
      (setNode d n { getNode d n with expanded_text := none }, -ENOMEM) := by
  unfold trie_insert_store allocate_text_storage
  rw [if_pos hcap]

theorem insert_store_ok (cfg : Config) (d : ExpanderData) (n : Nat)
    (value : List Char)
    (hcap : ¬ textCap cfg < d.text_pool_used + (value.length + 1))
    (hn : n < d.nodes.length) :
    (trie_insert_store cfg d n value).2 = 0 ∧
    (trie_insert_store cfg d n value).1.root = d.root ∧
    (trie_insert_store cfg d n value).1.current_short = d.current_short ∧
    (trie_insert_store cfg d n value).1.expansion_count = d.expansion_count ∧
    (trie_insert_store cfg d n value).1.text_pool
      = writeCStr d.text_pool d.text_pool_used value ∧
    (trie_insert_store cfg d n value).1.text_pool_used
      = d.text_pool_used + (value.length + 1) ∧
    (trie_insert_store cfg d n value).1.nodes
      = d.nodes.set n
          ⟨(getNode d n).children, some d.text_pool_used, true⟩ := by
  unfold trie_insert_store allocate_text_storage
  rw [if_neg hcap]
  refine ⟨rfl, rfl, rfl, rfl, rfl, rfl, ?_⟩
  show (d.nodes.set n { getNode d n with expanded_text := some d.text_pool_used }).set n _ = _
  rw [List.set_set]
  simp only [getNode, setNode]
  rw [getD_set_self _ _ _ _ (by simpa using hn)]

/-! ### Insert and delete characterizations -/

theorem trie_insert_walk_err (cfg : Config) (d : ExpanderData) (r : Nat)
    (key value : List Char) (d1 : ExpanderData) (e : Int)
    (hW : trie_insert_walk cfg d r key = (d1, .error e)) :
    trie_insert cfg d (some r) key value = (d1, e) := by
  simp only [trie_insert, hW]

theorem trie_insert_walk_ok (cfg : Config) (d : ExpanderData) (r : Nat)
    (key value : List Char) (d1 : ExpanderData) (n : Nat)
    (hW : trie_insert_walk cfg d r key = (d1, .ok n)) :
    trie_insert cfg d (some r) key value =
      match (getNode d1 n).is_terminal, (getNode d1 n).expanded_text with
      | true, some off =>
        if value.length + 1 ≤ (readCStr d1.text_pool off).length + 1 then
          ({ d1 with text_pool := writeCStr d1.text_pool off value }, 0)
        else trie_insert_store cfg d1 n value
      | _, _ => trie_insert_store cfg d1 n value := by
  simp only [trie_insert, hW]

theorem trie_search_some_root (d : ExpanderData) (r : Nat) (key : List Char) :
    trie_search d (some r) key =
      match walkPath d r key with
      | none => none
      | some n => if (getNode d n).is_terminal then some n else none := rfl

theorem validKeyChar_index (c : Char) (h : validKeyChar c = true) :
    ¬ char_to_trie_index c = -1 := by
  unfold validKeyChar at h
  unfold char_to_trie_index
  simp only [Bool.or_eq_true, Bool.and_eq_true, decide_eq_true_eq] at h
  rcases h with ⟨h1, h2⟩ | ⟨h1, h2⟩
  · have h3 : 97 ≤ c.toNat := h1
    simp only [if_pos (And.intro h1 h2)]
    omega
  · have h3 : 48 ≤ c.toNat := h1
    by_cases hz : 'a' ≤ c ∧ c ≤ 'z'
    · have h4 : 97 ≤ c.toNat := hz.1
      simp only [if_pos hz]
      omega
    · have h5 : c.toNat ≤ 57 := h2
      simp only [hz, if_false, if_pos (And.intro h1 h2)]
      omega

theorem delete_go_of_walkPath (d : ExpanderData) (cs : List Char) :
    ∀ (cur n : Nat), walkPath d cur cs = some n →
    trie_delete_go d cur cs = .ok n := by
  induction cs with
  | nil =>
    intro cur n h
    simp only [walkPath] at h
    injection h with h
    rw [trie_delete_go, h]
  | cons c cs ih =>
    intro cur n h
    simp only [walkPath] at h
    by_cases hidx : char_to_trie_index c = -1
    · rw [if_pos hidx] at h
      exact absurd h (by simp)
    · rw [if_neg hidx] at h
      rcases hch : childAt d cur (char_to_trie_index c).toNat with _ | child
      · rw [hch] at h
        exact absurd h (by simp)
      · rw [hch] at h
        rw [trie_delete_go]
        simp only [hidx, if_false, hch]
        exact ih child n h

theorem delete_go_none (d : ExpanderData) (cs : List Char) :
    ∀ (cur : Nat), cs.all validKeyChar = true → walkPath d cur cs = none →
    trie_delete_go d cur cs = .error (-ENOENT) := by
  induction cs with
  | nil =>
    intro cur _ h
    exact absurd h (by simp [walkPath])
  | cons c cs ih =>
    intro cur hv h
    simp only [List.all_cons, Bool.and_eq_true] at hv
    have hidx := validKeyChar_index c hv.1
    simp only [walkPath, hidx, if_false] at h
    rw [trie_delete_go]
    simp only [hidx, if_false]
    rcases hch : childAt d cur (char_to_trie_index c).toNat with _ | child
    · rfl
    · rw [hch] at h
      exact ih child hv.2 h

theorem delete_go_lt (d : ExpanderData) (cs : List Char) :
    ∀ (cur : Nat), refsOk d = true → cur < d.nodes.length →
    ∀ n, trie_delete_go d cur cs = .ok n → n < d.nodes.length := by
  induction cs with
  | nil =>
    intro cur _ hcur n h
    rw [trie_delete_go] at h
    injection h with h
    omega
  | cons c cs ih =>
    intro cur href hcur n h
    rw [trie_delete_go] at h
    by_cases hidx : char_to_trie_index c = -1
    · rw [if_pos hidx] at h
      exact absurd h (by simp)
    · rw [if_neg hidx] at h
      rcases hch : childAt d cur (char_to_trie_index c).toNat with _ | child
      · rw [hch] at h
        exact absurd h (by simp)
      · rw [hch] at h
        exact ih child href (refsOk_child_lt d cur _ child href hch) n h

theorem insert_store_tail (cfg : Config) (d d1 : ExpanderData) (n : Nat)
    (value : List Char) (k : Nat)
    (href1 : refsOk d1 = true) (hnlt : n < d1.nodes.length)
    (f1 : d1.root = d.root) (f2 : d1.current_short = d.current_short)
    (f3 : d1.expansion_count = d.expansion_count)
    (f7 : countTerminals d1 = countTerminals d)
    (hcnt : (getNode d1 n).is_terminal = true ∧ k = 0 ∨
            (getNode d1 n).is_terminal = false ∧ k = 1) :
    refsOk (trie_insert_store cfg d1 n value).1 = true ∧
    (trie_insert_store cfg d1 n value).1.expansion_count = d.expansion_count ∧
    (trie_insert_store cfg d1 n value).1.root = d.root ∧
    (trie_insert_store cfg d1 n value).1.current_short = d.current_short ∧
    ((trie_insert_store cfg d1 n value).2 = 0 →
      countTerminals (trie_insert_store cfg d1 n value).1 = countTerminals d + k) ∧
    ((trie_insert_store cfg d1 n value).2 ≠ 0 →
      countTerminals (trie_insert_store cfg d1 n value).1 = countTerminals d) := by
  by_cases hcap : textCap cfg < d1.text_pool_used + (value.length + 1)
  · rw [insert_store_nomem cfg d1 n value hcap]
    refine ⟨refsOk_set_same_children d1 n
        ⟨(getNode d1 n).children, none, (getNode d1 n).is_terminal⟩ href1 rfl,
      f3, f1, f2, fun h0 => ?_, fun _ => ?_⟩
    · exact absurd h0 (show ¬ ((-ENOMEM : Int) = 0) by decide)
    · exact (countTerminals_set_same d1 n
        ⟨(getNode d1 n).children, none, (getNode d1 n).is_terminal⟩ rfl).trans f7
  · obtain ⟨s1, s2, s3, s4, s5, s6, s7⟩ := insert_store_ok cfg d1 n value hcap hnlt
    have hrefs2 : refsOk (trie_insert_store cfg d1 n value).1 = true := by
      have h := refsOk_set_same_children d1 n
        ⟨(getNode d1 n).children, some d1.text_pool_used, true⟩ href1 rfl
      unfold refsOk at h ⊢
      simp only [setNode] at h
      rw [s7, s2]
      exact h
    refine ⟨hrefs2, s4.trans f3, s2.trans f1, s3.trans f2, fun _ => ?_,
      fun hne => absurd s1 hne⟩
    rcases hcnt with ⟨hterm, hk⟩ | ⟨hterm, hk⟩
    · subst hk
      have h := countTerminals_set_same d1 n
        ⟨(getNode d1 n).children, some d1.text_pool_used, true⟩ hterm.symm
      unfold countTerminals setNode at h
      unfold countTerminals
      rw [s7, h]
      unfold countTerminals at f7
      omega
    · subst hk
      have h := countTerminals_set_true d1 n
        ⟨(getNode d1 n).children, some d1.text_pool_used, true⟩ hnlt hterm rfl
      unfold countTerminals setNode at h
      unfold countTerminals
      rw [s7, h]
      unfold countTerminals at f7
      omega

theorem trie_insert_spec (cfg : Config) (d : ExpanderData) (r : Nat)
    (key value : List Char) (href : refsOk d = true) (hr : d.root = some r) :
    refsOk (trie_insert cfg d d.root key value).1 = true ∧
    (trie_insert cfg d d.root key value).1.expansion_count = d.expansion_count ∧
    (trie_insert cfg d d.root key value).1.root = d.root ∧
    (trie_insert cfg d d.root key value).1.current_short = d.current_short ∧
    ((trie_insert cfg d d.root key value).2 = 0 →
      countTerminals (trie_insert cfg d d.root key value).1
        = countTerminals d
            + (if (trie_search d d.root key).isSome = true then 0 else 1)) ∧
    ((trie_insert cfg d d.root key value).2 ≠ 0 →
      countTerminals (trie_insert cfg d d.root key value).1 = countTerminals d) := by
  have hrlt : r < d.nodes.length := refsOk_root_lt d r href hr
  rcases hW : trie_insert_walk cfg d r key with ⟨d1, res⟩
  have hfr := insert_walk_state cfg key d r
  have hnodes := insert_walk_nodes cfg key d r
  have hrefs := insert_walk_refs cfg key d r href hrlt
  have herr := insert_walk_error cfg key d r
  have hdich := insert_walk_dichotomy cfg key d r href hrlt
  rw [hW] at hfr hnodes hrefs herr hdich
  simp only at hfr hnodes hrefs herr hdich
  obtain ⟨f1, f2, f3, f4, f5, f6, f7⟩ := hfr
  have hgoal : trie_insert cfg d d.root key value
      = trie_insert cfg d (some r) key value := by rw [hr]
  cases res with
  | error e =>
    have hne : e ≠ 0 := by
      rcases herr e rfl with rfl | rfl <;> decide
    rw [hgoal, trie_insert_walk_err cfg d r key value d1 e hW]
    refine ⟨hrefs.1, f3, f1, f2, fun h0 => absurd h0 hne, fun _ => f7⟩
  | ok n =>
    rw [hgoal, trie_insert_walk_ok cfg d r key value d1 n hW]
    have hnlt : n < d1.nodes.length := hrefs.2 n rfl
    have hsome : (getNode d1 n).is_terminal = true →
        trie_search d d.root key = some n ∧ d1 = d := by
      intro hterm
      rcases hdich n rfl with ⟨heq, hwp⟩ | ⟨hge, _⟩
      · refine ⟨?_, heq⟩
        rw [hr, trie_search_some_root, hwp]
        show (if (getNode d n).is_terminal = true then some n else none) = some n
        rw [if_pos (heq ▸ hterm)]
      · rw [(hnodes.2.1 n hge).1] at hterm
        exact absurd hterm (by simp)
    have hnone : (getNode d1 n).is_terminal = false →
        trie_search d d.root key = none := by
      intro hterm
      rcases hdich n rfl with ⟨heq, hwp⟩ | ⟨_, hwp⟩
      · rw [hr, trie_search_some_root, hwp]
        show (if (getNode d n).is_terminal = true then some n else none) = none
        rw [if_neg (by rw [← heq]; simp [hterm])]
      · rw [hr, trie_search_some_root, hwp]
    by_cases hterm : (getNode d1 n).is_terminal = true
    · obtain ⟨hsrch, heq⟩ := hsome hterm
      have hifz : (if (trie_search d d.root key).isSome = true then 0 else 1) = 0 := by
        rw [hsrch]
        rfl
      have htail := insert_store_tail cfg d d1 n value 0 hrefs.1 hnlt f1 f2 f3 f7
        (Or.inl ⟨hterm, rfl⟩)
      obtain ⟨t1, t2, t3, t4, t5, t6⟩ := htail
      rcases htext : (getNode d1 n).expanded_text with _ | off
      · simp only [hterm, htext]
        exact ⟨t1, t2, t3, t4, fun h0 => by rw [hifz]; exact t5 h0, t6⟩
      · simp only [hterm, htext]
        by_cases hle : value.length + 1 ≤ (readCStr d1.text_pool off).length + 1
        · rw [if_pos hle]
          refine ⟨hrefs.1, f3, f1, f2, fun _ => ?_, fun hne => absurd rfl hne⟩
          rw [hifz]
          show countTerminals d1 = countTerminals d + 0
          omega
        · rw [if_neg hle]
          exact ⟨t1, t2, t3, t4, fun h0 => by rw [hifz]; exact t5 h0, t6⟩
    · have htermf : (getNode d1 n).is_terminal = false := by
        cases h : (getNode d1 n).is_terminal
        · rfl
        · exact absurd h hterm
      have hsrch := hnone htermf
      have hifz : (if (trie_search d d.root key).isSome = true then 0 else 1) = 1 := by
        rw [hsrch]
        rfl
      have htail := insert_store_tail cfg d d1 n value 1 hrefs.1 hnlt f1 f2 f3 f7
        (Or.inr ⟨htermf, rfl⟩)
      obtain ⟨t1, t2, t3, t4, t5, t6⟩ := htail
      rcases htext : (getNode d1 n).expanded_text with _ | off
      · simp only [htermf, htext]
        exact ⟨t1, t2, t3, t4, fun h0 => by rw [hifz]; exact t5 h0, t6⟩
      · simp only [htermf, htext]
        exact ⟨t1, t2, t3, t4, fun h0 => by rw [hifz]; exact t5 h0, t6⟩

theorem delete_go_error (d : ExpanderData) (cs : List Char) :
    ∀ (cur : Nat) (e : Int), trie_delete_go d cur cs = .error e →
    e = -EINVAL ∨ e = -ENOENT := by
  induction cs with
  | nil =>
    intro cur e h
    rw [trie_delete_go] at h
    exact absurd h (by simp)
  | cons c cs ih =>
    intro cur e h
    rw [trie_delete_go] at h
    by_cases hidx : char_to_trie_index c = -1
    · rw [if_pos hidx] at h
      injection h with h
      exact Or.inl h.symm
    · rw [if_neg hidx] at h
      rcases hch : childAt d cur (char_to_trie_index c).toNat with _ | child
      · rw [hch] at h
        injection h with h
        exact Or.inr h.symm
      · rw [hch] at h
        exact ih child e h

theorem trie_delete_go_err (cfg : Config) (d : ExpanderData) (r : Nat)
    (key : List Char) (e : Int)
    (h : trie_delete_go d r (key.take cfg.maxShortLen) = .error e) :
    trie_delete cfg d (some r) key = (d, e) := by
  simp only [trie_delete, h]

theorem trie_delete_go_ok (cfg : Config) (d : ExpanderData) (r : Nat)
    (key : List Char) (n : Nat)
    (h : trie_delete_go d r (key.take cfg.maxShortLen) = .ok n) :
    trie_delete cfg d (some r) key =
      if (getNode d n).is_terminal = true then
        (setNode d n { getNode d n with is_terminal := false, expanded_text := none }, 0)
      else (d, -ENOENT) := by
  simp only [trie_delete, h]

theorem trie_delete_spec (cfg : Config) (d : ExpanderData) (key : List Char)
    (href : refsOk d = true) :
    ((trie_delete cfg d d.root key).2 = 0 →
      refsOk (trie_delete cfg d d.root key).1 = true ∧
      countTerminals (trie_delete cfg d d.root key).1 + 1 = countTerminals d ∧
      (trie_delete cfg d d.root key).1.expansion_count = d.expansion_count ∧
      1 ≤ countTerminals d) ∧
    ((trie_delete cfg d d.root key).2 ≠ 0 →
      (trie_delete cfg d d.root key).1 = d) := by
  rcases hroot : d.root with _ | r
  · exact ⟨fun h0 => absurd h0 (show ¬ ((-EINVAL : Int) = 0) by decide), fun _ => rfl⟩
  · have hrlt : r < d.nodes.length := refsOk_root_lt d r href hroot
    rcases hG : trie_delete_go d r (key.take cfg.maxShortLen) with e | n
    · rw [trie_delete_go_err cfg d r key e hG]
      have hne : e ≠ 0 := by
        rcases delete_go_error d _ r e hG with rfl | rfl <;> decide
      exact ⟨fun h0 => absurd h0 hne, fun _ => rfl⟩
    · have hnlt : n < d.nodes.length := delete_go_lt d _ r href hrlt n hG
      rw [trie_delete_go_ok cfg d r key n hG]
      by_cases hterm : (getNode d n).is_terminal = true
      · rw [if_pos hterm]
        refine ⟨fun _ => ⟨?_, ?_, rfl, ?_⟩, fun hne => absurd rfl hne⟩
        · exact refsOk_set_same_children d n
            ⟨(getNode d n).children, none, false⟩ href rfl
        · exact countTerminals_set_false d n
            ⟨(getNode d n).children, none, false⟩ hnlt hterm rfl
        · exact countTerminals_pos d n hnlt hterm
      · rw [if_neg hterm]
        exact ⟨fun h0 => absurd h0 (show ¬ ((-ENOENT : Int) = 0) by decide), fun _ => rfl⟩

/-! ### Admin layer invariant -/

theorem add_expansion_body (cfg : Config) (d : ExpanderData) (k v : List Char)
    (h1 : ¬ (k.length = 0 ∨ cfg.maxShortLen ≤ k.length ∨ v.length = 0 ∨
      cfg.maxExpandedLen ≤ v.length))
    (h2 : k.all validKeyChar = true) :
    zmk_text_expander_add_expansion cfg d (some k) (some v) =
      if (trie_insert cfg d d.root k v).2 = 0 ∧
          ¬ (trie_search d d.root k).isSome = true then
        ({ (trie_insert cfg d d.root k v).1 with
            expansion_count := ((trie_insert cfg d d.root k v).1.expansion_count + 1) % 256 },
          (trie_insert cfg d d.root k v).2)
      else trie_insert cfg d d.root k v := by
  simp only [zmk_text_expander_add_expansion]
  rw [if_neg h1, if_neg (not_not_intro h2)]

theorem remove_expansion_body (cfg : Config) (d : ExpanderData) (k : List Char) :
    zmk_text_expander_remove_expansion cfg d (some k) =
      if (trie_delete cfg d d.root k).2 = 0 then
        ({ (trie_delete cfg d d.root k).1 with
            expansion_count := ((trie_delete cfg d d.root k).1.expansion_count + 255) % 256 },
          (trie_delete cfg d d.root k).2)
      else trie_delete cfg d d.root k := rfl

theorem add_inv (cfg : Config) (d : ExpanderData) (key value : Option (List Char))
    (hinv : d.expansion_count = countTerminals d % 256) (href : refsOk d = true) :
    (zmk_text_expander_add_expansion cfg d key value).1.expansion_count
      = countTerminals (zmk_text_expander_add_expansion cfg d key value).1 % 256 ∧
    refsOk (zmk_text_expander_add_expansion cfg d key value).1 = true := by
  rcases key with _ | k
  · cases value <;> exact ⟨hinv, href⟩
  rcases value with _ | v
  · exact ⟨hinv, href⟩
  by_cases h1 : k.length = 0 ∨ cfg.maxShortLen ≤ k.length ∨ v.length = 0 ∨
      cfg.maxExpandedLen ≤ v.length
  · have hb : zmk_text_expander_add_expansion cfg d (some k) (some v)
        = (d, -EINVAL) := by
      simp only [zmk_text_expander_add_expansion]
      rw [if_pos h1]
    rw [hb]
    exact ⟨hinv, href⟩
  by_cases h2 : k.all validKeyChar = true
  · rw [add_expansion_body cfg d k v h1 h2]
    rcases hroot : d.root with _ | r
    · have hcond : ¬ ((trie_insert cfg d none k v).2 = 0 ∧
          ¬ (trie_search d none k).isSome = true) := by
        intro hc
        exact absurd hc.1 (show ¬ ((-EINVAL : Int) = 0) by decide)
      rw [if_neg hcond]
      exact ⟨hinv, href⟩
    · obtain ⟨i1, i2, i3, i4, i5, i6⟩ := trie_insert_spec cfg d r k v href hroot
      rw [hroot] at i1 i2 i3 i4 i5 i6
      by_cases hc : (trie_insert cfg d (some r) k v).2 = 0 ∧
          ¬ (trie_search d (some r) k).isSome = true
      · rw [if_pos hc]
        constructor
        · show ((trie_insert cfg d (some r) k v).1.expansion_count + 1) % 256
            = countTerminals (trie_insert cfg d (some r) k v).1 % 256
          rw [i2, i5 hc.1, if_neg hc.2, hinv]
          omega
        · exact i1
      · rw [if_neg hc]
        by_cases h0 : (trie_insert cfg d (some r) k v).2 = 0
        · have hupd : (trie_search d (some r) k).isSome = true := by
            by_cases hs : (trie_search d (some r) k).isSome = true
            · exact hs
            · exact absurd ⟨h0, hs⟩ hc
          refine ⟨?_, i1⟩
          rw [i2, i5 h0, if_pos hupd, hinv]
          omega
        · refine ⟨?_, i1⟩
          rw [i2, i6 h0, hinv]
  · have hb : zmk_text_expander_add_expansion cfg d (some k) (some v)
        = (d, -EINVAL) := by
      simp only [zmk_text_expander_add_expansion]
      rw [if_neg h1, if_pos (by simpa using h2)]
    rw [hb]
    exact ⟨hinv, href⟩

theorem remove_inv (cfg : Config) (d : ExpanderData) (key : Option (List Char))
    (hinv : d.expansion_count = countTerminals d % 256) (href : refsOk d = true) :
    (zmk_text_expander_remove_expansion cfg d key).1.expansion_count
      = countTerminals (zmk_text_expander_remove_expansion cfg d key).1 % 256 ∧
    refsOk (zmk_text_expander_remove_expansion cfg d key).1 = true := by
  rcases key with _ | k
  · exact ⟨hinv, href⟩
  rw [remove_expansion_body cfg d k]
  obtain ⟨dspec1, dspec2⟩ := trie_delete_spec cfg d k href
  by_cases h0 : (trie_delete cfg d d.root k).2 = 0
  · rw [if_pos h0]
    obtain ⟨q1, q2, q3, q4⟩ := dspec1 h0
    constructor
    · show ((trie_delete cfg d d.root k).1.expansion_count + 255) % 256
        = countTerminals (trie_delete cfg d d.root k).1 % 256
      rw [q3, hinv]
      omega
    · exact q1
  · rw [if_neg h0]
    rw [dspec2 h0]
    exact ⟨hinv, href⟩

theorem initData_inv (cfg : Config) :
    (initData cfg).expansion_count = countTerminals (initData cfg) % 256 ∧
    refsOk (initData cfg) = true := by
  by_cases hcap : nodeCap cfg ≤ 0
  · have h : initData cfg =
        { root := none, current_short := [], expansion_count := 0, nodes := [],
          text_pool := List.replicate (textCap cfg) nul, text_pool_used := 0 } := by
      simp [initData, allocate_trie_node, hcap]
    rw [h]
    exact ⟨rfl, rfl⟩
  · have h : initData cfg =
        { root := some 0, current_short := [], expansion_count := 0,
          nodes := [emptyNode],
          text_pool := List.replicate (textCap cfg) nul, text_pool_used := 0 } := by
      simp [initData, allocate_trie_node, hcap]
    rw [h]
    refine ⟨rfl, ?_⟩
    unfold refsOk
    simp only [Bool.and_eq_true]
    exact ⟨by simp [childOk], by simp [nodeOk_emptyNode]⟩

theorem take_ge_eq {α : Type} (l : List α) (n : Nat) (h : l.length ≤ n) :
    l.take n = l := by
  induction l generalizing n with
  | nil => simp
  | cons y ys ih =>
    cases n with
    | zero => simp at h
    | succ n => simpa using ih n (by simpa using h)

theorem trie_search_some_inv (d : ExpanderData) (r : Nat) (key : List Char)
    (n : Nat) (h : trie_search d (some r) key = some n) :
    walkPath d r key = some n ∧ (getNode d n).is_terminal = true := by
  rw [trie_search_some_root] at h
  rcases hwp : walkPath d r key with _ | m
  · rw [hwp] at h
    exact absurd h (by simp)
  · rw [hwp] at h
    have h2 : (if (getNode d m).is_terminal = true then some m else none)
        = some n := h
    by_cases ht : (getNode d m).is_terminal = true
    · rw [if_pos ht] at h2
      injection h2 with h2
      subst h2
      exact ⟨rfl, ht⟩
    · rw [if_neg ht] at h2
      exact absurd h2 (by simp)

theorem walkPath_lt (d : ExpanderData) (key : List Char) (r n : Nat)
    (href : refsOk d = true) (hr : r < d.nodes.length)
    (h : walkPath d r key = some n) : n < d.nodes.length :=
  delete_go_lt d key r href hr n (delete_go_of_walkPath d key r n h)

theorem childAt_setNode (d : ExpanderData) (m : Nat) (nod : TrieNode)
    (hch : nod.children = (getNode d m).children) (i j : Nat) :
    childAt (setNode d m nod) i j = childAt d i j := by
  unfold childAt
  by_cases him : i = m
  · subst him
    by_cases hlt : i < d.nodes.length
    · rw [getNode_set_self d i nod hlt, hch]
    · show ((d.nodes.set i nod).getD i emptyNode).children.getD j none = _
      rw [set_ge_eq _ _ _ (by omega)]
      rfl
  · rw [getNode_set_ne d m i nod (fun hh => him hh.symm)]

theorem walkPath_nodes_congr (d1 d2 : ExpanderData) (h : d1.nodes = d2.nodes) :
    ∀ (cs : List Char) (cur : Nat), walkPath d1 cur cs = walkPath d2 cur cs :=
  walkPath_congr d1 d2 (fun i j => by unfold childAt getNode; rw [h])

theorem textOk_parts (cfg : Config) (d : ExpanderData)
    (h : textOk cfg d = true) :
    d.text_pool.length = textCap cfg ∧ d.text_pool_used ≤ textCap cfg ∧
    (∀ i, i < d.nodes.length → ∀ off, (getNode d i).expanded_text = some off →
      off + (readCStr d.text_pool off).length < d.text_pool_used) := by
  unfold textOk at h
  simp only [Bool.and_eq_true, decide_eq_true_eq] at h
  refine ⟨h.1.1, h.1.2, ?_⟩
  intro i hi off hoff
  have hslot : (fun nd => textSlotOk d.text_pool d.text_pool_used nd.expanded_text)
      (d.nodes.getD i emptyNode) = true :=
    all_getD _ d.nodes i emptyNode h.2 (by rfl)
  simp only at hslot
  unfold getNode at hoff
  rw [hoff] at hslot
  simpa [textSlotOk] using hslot

/-! ### Claim theorems -/

/-- C3: after storing `("eml","a@b.com")` and committing with the buffer
holding `eml`, the buffer is empty as soon as the commit returns (before any
job step); the job then emits exactly 3 backspace press/release pairs
followed by the 7 characters of `a@b.com` in order, with a shift press before
and a shift release after the `@` keystroke, and ends in the idle state (its
next callback does not reschedule and emits nothing). -/
theorem eml_commit_end_to_end :
    commitEml.1.current_short = [] ∧
    commitEml.2 = some (start_expansion cfgDef ['a', '@', 'b', '.', 'c', 'o', 'm'] 3) ∧
    (run_expansion cfgDef 20 (commitEml.2.getD (start_expansion cfgDef [] 0))).1
      = emlTrace ∧
    (run_expansion cfgDef 20 (commitEml.2.getD (start_expansion cfgDef [] 0))).2
      = { expanded_text := ['a', '@', 'b', '.', 'c', 'o', 'm'],
          backspace_count := 0, is_backspace_phase := false, text_index := 7 } ∧
    (expansion_work_handler cfgDef
      { expanded_text := ['a', '@', 'b', '.', 'c', 'o', 'm'],
        backspace_count := 0, is_backspace_phase := false, text_index := 7 })
      = ({ expanded_text := ['a', '@', 'b', '.', 'c', 'o', 'm'],
           backspace_count := 0, is_backspace_phase := false, text_index := 7 },
         [], false) := by
  decide

/-- C5 counterexample: pressing `x` (keycode 27) with the buffer already full
leaves a one-character buffer `"x"`, not the empty buffer the claim
requires. -/
theorem overflow_keeps_triggering_char :
    dFullBuf.current_short = ['a', 'b', 'c'] ∧
    (text_expander_keycode_state_changed_listener cfgSmall dFullBuf 27 true).current_short
      = ['x'] ∧
    (['x'] : List Char) ≠ [] := by
  decide

/-- C5 amended: when an alphanumeric key is pressed while the buffer already
holds its maximum of `MAX_SHORT_LEN - 1` characters, the buffer is reset and
the triggering character is then appended, so the buffer holds exactly that
one character after the event. -/
theorem overflow_resets_then_appends (cfg : Config) (d : ExpanderData) (kc : Nat)
    (halpha : (KC_A ≤ kc ∧ kc ≤ KC_Z) ∨ (KC_1 ≤ kc ∧ kc ≤ KC_9) ∨ kc = KC_0)
    (hfull : d.current_short.length = cfg.maxShortLen - 1)
    (hmax : 2 ≤ cfg.maxShortLen) :
    (text_expander_keycode_state_changed_listener cfg d kc true).current_short
      = [listener_alpha_char kc] := by
  have hover : ¬ d.current_short.length < cfg.maxShortLen - 1 := by omega
  have hpos : 0 < cfg.maxShortLen - 1 := by omega
  simp only [KC_A, KC_Z, KC_1, KC_9, KC_0] at halpha
  rcases halpha with ⟨h1, h2⟩ | ⟨h1, h2⟩ | h1
  · have h3 : kc ≤ 29 := h2
    simp [text_expander_keycode_state_changed_listener, add_to_current_short,
      listener_alpha_char, KC_A, KC_Z, h1, h2, h3, hover, hpos]
  · have h3 : ¬ kc ≤ 29 := by omega
    have h4 : kc ≤ 38 := h2
    simp [text_expander_keycode_state_changed_listener, add_to_current_short,
      listener_alpha_char, KC_A, KC_Z, KC_1, KC_9, h1, h2, h3, h4, hover, hpos]
  · subst h1
    simp [text_expander_keycode_state_changed_listener, add_to_current_short,
      listener_alpha_char, KC_A, KC_Z, KC_1, KC_9, KC_0, KC_SPACE, hover, hpos]

/-- C5 witness: the amended behavior at keycode 27 on the concrete full
buffer. -/
theorem overflow_resets_then_appends_witness :
    ((KC_A ≤ 27 ∧ 27 ≤ KC_Z) ∨ (KC_1 ≤ 27 ∧ 27 ≤ KC_9) ∨ 27 = KC_0) ∧
    dFullBuf.current_short.length = cfgSmall.maxShortLen - 1 ∧
    2 ≤ cfgSmall.maxShortLen ∧
    (text_expander_keycode_state_changed_listener cfgSmall dFullBuf 27 true).current_short
      = [listener_alpha_char 27] :=
  ⟨by decide, by decide, by decide,
   overflow_resets_then_appends cfgSmall dFullBuf 27 (by decide) (by decide) (by decide)⟩

/-- C6: pressing backspace (keycode 42) with the buffer holding `eml` leaves
the buffer unchanged at `eml` — the listener only exempts backspace from the
generic reset and never removes the last character, contradicting the
documented delete-last behavior (which requires `em`). -/
theorem backspace_leaves_buffer_unchanged :
    dEmlTyped.current_short = ['e', 'm', 'l'] ∧
    (text_expander_keycode_state_changed_listener cfgDef dEmlTyped KC_BKSP true).current_short
      = ['e', 'm', 'l'] := by
  decide

/-- C7 counterexample: `clear_all` on a store whose input buffer holds `em`
leaves the buffer holding `em` — it is not zeroed as the claim requires. -/
theorem clear_all_keeps_input_buffer :
    dEmBuf.current_short = ['e', 'm'] ∧
    (zmk_text_expander_clear_all cfgDef dEmBuf).current_short = ['e', 'm'] ∧
    (['e', 'm'] : List Char) ≠ [] := by
  decide

/-- On a store whose node pool holds only a fresh root, no key exists. -/
theorem exists_false_of_root_only (d : ExpanderData) (hn : d.nodes = [emptyNode])
    (hr : d.root = some 0) (key : List Char) :
    zmk_text_expander_exists d (some key) = false := by
  have hg : getNode d 0 = emptyNode := by simp [getNode, hn]
  unfold zmk_text_expander_exists trie_search
  rw [hr]
  cases key with
  | nil => simp [walkPath, hg, emptyNode]
  | cons c cs =>
    simp only [walkPath]
    by_cases hc : char_to_trie_index c = -1
    · simp [hc]
    · have hch : childAt d 0 (char_to_trie_index c).toNat = none := by
        show (getNode d 0).children.getD _ none = none
        rw [hg]
        exact getD_replicate_none 36 _
      simp [hc, hch]

/-- C7 amended: `clear_all` zeroes `entry_count`, rewinds both arena cursors
to the root-only state with a freshly allocated root, and makes `exists`
false for every key; the input buffer is left unchanged (it is not zeroed). -/
theorem clear_all_resets_store (cfg : Config) (d : ExpanderData)
    (hcap : 1 ≤ nodeCap cfg) :
    (zmk_text_expander_clear_all cfg d).expansion_count = 0 ∧
    (zmk_text_expander_clear_all cfg d).text_pool_used = 0 ∧
    (zmk_text_expander_clear_all cfg d).nodes = [emptyNode] ∧
    (zmk_text_expander_clear_all cfg d).root = some 0 ∧
    (zmk_text_expander_clear_all cfg d).current_short = d.current_short ∧
    ∀ key, zmk_text_expander_exists (zmk_text_expander_clear_all cfg d)
      (some key) = false := by
  have h0 : ¬ nodeCap cfg ≤ 0 := by omega
  have hstate : zmk_text_expander_clear_all cfg d =
      { root := some 0, current_short := d.current_short, expansion_count := 0,
        nodes := [emptyNode], text_pool := d.text_pool, text_pool_used := 0 } := by
    simp [zmk_text_expander_clear_all, allocate_trie_node, h0]
  refine ⟨by rw [hstate], by rw [hstate], by rw [hstate], by rw [hstate],
    by rw [hstate], fun key => exists_false_of_root_only _ ?_ ?_ key⟩
  · rw [hstate]
  · rw [hstate]

/-- C7 witness: the amended behavior on the concrete `em`-buffer store. -/
theorem clear_all_resets_store_witness :
    1 ≤ nodeCap cfgDef ∧
    ((zmk_text_expander_clear_all cfgDef dEmBuf).expansion_count = 0 ∧
     (zmk_text_expander_clear_all cfgDef dEmBuf).text_pool_used = 0 ∧
     (zmk_text_expander_clear_all cfgDef dEmBuf).nodes = [emptyNode] ∧
     (zmk_text_expander_clear_all cfgDef dEmBuf).root = some 0 ∧
     (zmk_text_expander_clear_all cfgDef dEmBuf).current_short = dEmBuf.current_short ∧
     ∀ key, zmk_text_expander_exists (zmk_text_expander_clear_all cfgDef dEmBuf)
       (some key) = false) :=
  ⟨by decide, clear_all_resets_store cfgDef dEmBuf (by decide)⟩

/-- C8: `add_or_update` with a null, empty or over-limit key or value, or a
key containing a character outside `a..z`/`0..9`, returns `-EINVAL` and
leaves the whole store (trie, arena cursors, entry count) unchanged. -/
theorem add_invalid_args_no_mutation (cfg : Config) (d : ExpanderData)
    (key value : Option (List Char))
    (h : key = none ∨ value = none ∨ ∃ k v, key = some k ∧ value = some v ∧
      (k.length = 0 ∨ cfg.maxShortLen ≤ k.length ∨ v.length = 0 ∨
       cfg.maxExpandedLen ≤ v.length ∨ ¬ k.all validKeyChar)) :
    zmk_text_expander_add_expansion cfg d key value = (d, -EINVAL) := by
  rcases h with rfl | rfl | ⟨k, v, rfl, rfl, hbad⟩
  · cases value <;> rfl
  · cases key <;> rfl
  · rcases hbad with h1 | h1 | h1 | h1 | h1
    · simp only [zmk_text_expander_add_expansion]
      rw [if_pos (Or.inl h1)]
    · simp only [zmk_text_expander_add_expansion]
      rw [if_pos (Or.inr (Or.inl h1))]
    · simp only [zmk_text_expander_add_expansion]
      rw [if_pos (Or.inr (Or.inr (Or.inl h1)))]
    · simp only [zmk_text_expander_add_expansion]
      rw [if_pos (Or.inr (Or.inr (Or.inr h1)))]
    · by_cases hlen : k.length = 0 ∨ cfg.maxShortLen ≤ k.length ∨ v.length = 0 ∨
        cfg.maxExpandedLen ≤ v.length
      · simp only [zmk_text_expander_add_expansion]
        rw [if_pos hlen]
      · simp only [zmk_text_expander_add_expansion]
        rw [if_neg hlen, if_pos h1]

/-- C8 witness: adding key `A` (upper case is outside the alphabet) is
rejected with `-EINVAL` and does not change the store. -/
theorem add_invalid_args_no_mutation_witness :
    (¬ (['A'] : List Char).all validKeyChar) ∧
    zmk_text_expander_add_expansion cfgDef (initData cfgDef) (some ['A'])
      (some ['x']) = (initData cfgDef, -EINVAL) :=
  ⟨by decide,
   add_invalid_args_no_mutation cfgDef (initData cfgDef) (some ['A']) (some ['x'])
     (Or.inr (Or.inr ⟨['A'], ['x'], rfl, rfl,
       Or.inr (Or.inr (Or.inr (Or.inr (by decide))))⟩))⟩


/-- The last trace entry is the final count / terminal-count pair. -/
theorem auditTrace_last (cfg : Config) : ∀ (ops : List AdminOp)
    (d : ExpanderData) (x : Nat × Nat),
    (auditTrace cfg ops d).getLastD x
      = ((runAdminOps cfg d ops).expansion_count,
         countTerminals (runAdminOps cfg d ops)) := by
  intro ops
  induction ops with
  | nil => intro d x; rfl
  | cons op ops ih =>
    intro d x
    show ((d.expansion_count, countTerminals d) ::
      auditTrace cfg ops (runAdminOp cfg d op)).getLastD x = _
    rw [List.getLastD_cons]
    exact ih (runAdminOp cfg d op) _

set_option maxRecDepth 10000 in
set_option maxHeartbeats 4000000 in
/-- Evaluated trace of the 256 distinct adds: before the `i`-th call the
`uint8` counter reads `i % 256` while `i` terminal nodes exist; after all
256 adds the counter has wrapped to 0 against 256 terminal nodes. -/
theorem auditTrace_wrapOps :
    auditTrace cfgWrap wrapOps (initData cfgWrap)
      = (List.range 257).map (fun i => (i % 256, i)) := by
  decide

set_option maxRecDepth 10000 in
/-- C1 counterexample: `entry_count` is a `uint8_t` (src/src/text_expander.c:35)
and the increment at line 228 wraps.  On a configuration whose node pool holds
300 nodes, 256 adds of distinct keys all succeed; afterwards the counter has
wrapped to 0 while 256 trie nodes are terminal, so the claimed equality fails. -/
theorem entry_count_wraps_at_256 :
    ¬ ((runAdminOps cfgWrap (initData cfgWrap) wrapOps).expansion_count
      = countTerminals (runAdminOps cfgWrap (initData cfgWrap) wrapOps)) := by
  intro heq
  have h := auditTrace_last cfgWrap wrapOps (initData cfgWrap) (0, 0)
  rw [auditTrace_wrapOps] at h
  have h2 : (((List.range 257).map (fun i => (i % 256, i))).getLastD (0, 0))
      = (0, 256) := by decide
  rw [h2, Prod.mk.injEq] at h
  exact absurd (h.1.trans (heq.trans h.2.symm)) (by decide)

/-- C1: after any sequence of `add_or_update` / `remove` admin calls on a
freshly initialized store, the `uint8` `entry_count` maintained by the admin
layer equals the number of trie nodes whose terminal flag is true reduced
modulo 256 (add increments only when the key was not already present, remove
decrements only on success, both wrapping as `uint8_t` arithmetic). -/
theorem entry_count_matches_terminal_nodes_mod256 (cfg : Config)
    (ops : List AdminOp) :
    (runAdminOps cfg (initData cfg) ops).expansion_count
      = countTerminals (runAdminOps cfg (initData cfg) ops) % 256 := by
  have main : ∀ (ops : List AdminOp) (d : ExpanderData),
      d.expansion_count = countTerminals d % 256 → refsOk d = true →
      (runAdminOps cfg d ops).expansion_count
          = countTerminals (runAdminOps cfg d ops) % 256 ∧
        refsOk (runAdminOps cfg d ops) = true := by
    intro ops
    induction ops with
    | nil => intro d hinv href; exact ⟨hinv, href⟩
    | cons op ops ih =>
      intro d hinv href
      cases op with
      | add k v =>
        have h := add_inv cfg d k v hinv href
        exact ih _ h.1 h.2
      | remove k =>
        have h := remove_inv cfg d k hinv href
        exact ih _ h.1 h.2
  exact (main ops (initData cfg) (initData_inv cfg).1 (initData_inv cfg).2).1

/-- C9: removing a key that is not stored — its path is absent from the trie
or the final node is non-terminal — returns `-ENOENT` and leaves the whole
store (`entry_count` and the trie) unchanged. -/
theorem remove_unstored_key (cfg : Config) (d : ExpanderData) (key : List Char)
    (r : Nat) (href : refsOk d = true) (hroot : d.root = some r)
    (hvalid : key.all validKeyChar = true)
    (hlen : key.length ≤ cfg.maxShortLen)
    (hmiss : trie_search d d.root key = none) :
    zmk_text_expander_remove_expansion cfg d (some key) = (d, -ENOENT) := by
  rw [hroot] at hmiss
  have htake : key.take cfg.maxShortLen = key := take_ge_eq key _ hlen
  have hdel : trie_delete cfg d (some r) key = (d, -ENOENT) := by
    rcases hwp : walkPath d r key with _ | n
    · have hgo : trie_delete_go d r (key.take cfg.maxShortLen)
          = .error (-ENOENT) := by
        rw [htake]
        exact delete_go_none d key r hvalid hwp
      rw [trie_delete_go_err cfg d r key (-ENOENT) hgo]
    · have hterm : ¬ (getNode d n).is_terminal = true := by
        intro hterm
        rw [trie_search_some_root, hwp] at hmiss
        have h2 : (if (getNode d n).is_terminal = true then some n else none)
            = none := hmiss
        rw [if_pos hterm] at h2
        exact absurd h2 (by simp)
      have hgo : trie_delete_go d r (key.take cfg.maxShortLen) = .ok n := by
        rw [htake]
        exact delete_go_of_walkPath d key r n hwp
      rw [trie_delete_go_ok cfg d r key n hgo, if_neg hterm]
  rw [remove_expansion_body cfg d key, hroot, hdel]
  rw [if_neg (show ¬ ((-ENOENT : Int) = 0) by decide)]

/-- C9 witness: removing the absent key `ab` from the store holding only
`eml` returns `-ENOENT` and leaves the state untouched. -/
theorem remove_unstored_key_witness :
    refsOk dEml = true ∧ dEml.root = some 0 ∧
    (['a', 'b'] : List Char).all validKeyChar = true ∧
    (['a', 'b'] : List Char).length ≤ cfgDef.maxShortLen ∧
    trie_search dEml dEml.root ['a', 'b'] = none ∧
    zmk_text_expander_remove_expansion cfgDef dEml (some ['a', 'b'])
      = (dEml, -ENOENT) :=
  ⟨by decide, by decide, by decide, by decide, by decide,
   remove_unstored_key cfgDef dEml ['a', 'b'] 0 (by decide) (by decide)
     (by decide) (by decide) (by decide)⟩

/-- C10: when `add_or_update` of an already-stored key fails with
`-ENOMEM` while allocating a new, longer text slot, the stored value is
lost: the node's text reference is nulled before the error is reported,
the node stays terminal, a subsequent lookup returns no text
(`find_expansion` yields NULL although the key still "exists"), and
`entry_count` is unchanged. -/
theorem add_longer_value_oom_loses_old (cfg : Config) (d : ExpanderData)
    (key value2 : List Char) (r n off : Nat)
    (href : refsOk d = true) (hroot : d.root = some r)
    (hsearch : trie_search d d.root key = some n)
    (htext : (getNode d n).expanded_text = some off)
    (hlonger : (readCStr d.text_pool off).length < value2.length)
    (hoom : textCap cfg < d.text_pool_used + (value2.length + 1))
    (hklen : ¬ (key.length = 0 ∨ cfg.maxShortLen ≤ key.length ∨
      value2.length = 0 ∨ cfg.maxExpandedLen ≤ value2.length))
    (hkvalid : key.all validKeyChar = true) :
    zmk_text_expander_add_expansion cfg d (some key) (some value2)
      = (setNode d n { getNode d n with expanded_text := none }, -ENOMEM) ∧
    (getNode (setNode d n { getNode d n with expanded_text := none }) n).is_terminal
      = true ∧
    (getNode (setNode d n { getNode d n with expanded_text := none }) n).expanded_text
      = none ∧
    lookup_value (setNode d n { getNode d n with expanded_text := none }) key
      = none ∧
    (setNode d n { getNode d n with expanded_text := none }).expansion_count
      = d.expansion_count := by
  rw [hroot] at hsearch
  obtain ⟨hwp, hterm⟩ := trie_search_some_inv d r key n hsearch
  have hrlt : r < d.nodes.length := refsOk_root_lt d r href hroot
  have hnlt : n < d.nodes.length := walkPath_lt d key r n href hrlt hwp
  have hW : trie_insert_walk cfg d r key = (d, .ok n) :=
    insert_walk_of_walkPath cfg key d r n hwp
  have hins : trie_insert cfg d (some r) key value2
      = (setNode d n { getNode d n with expanded_text := none }, -ENOMEM) := by
    rw [trie_insert_walk_ok cfg d r key value2 d n hW]
    simp only [hterm, htext]
    rw [if_neg (by omega), insert_store_nomem cfg d n value2 hoom]
    simp only [hterm]
  have hadd : zmk_text_expander_add_expansion cfg d (some key) (some value2)
      = (setNode d n { getNode d n with expanded_text := none }, -ENOMEM) := by
    rw [add_expansion_body cfg d key value2 hklen hkvalid, hroot, hins]
    rw [if_neg (fun hc => absurd hc.1 (show ¬ ((-ENOMEM : Int) = 0) by decide))]
  have hg : getNode (setNode d n { getNode d n with expanded_text := none }) n
      = { getNode d n with expanded_text := none } :=
    getNode_set_self d n _ hnlt
  refine ⟨hadd, by rw [hg]; exact hterm, by rw [hg], ?_, rfl⟩
  have hwp2 : walkPath (setNode d n { getNode d n with expanded_text := none })
      r key = some n := by
    rw [walkPath_congr (setNode d n { getNode d n with expanded_text := none }) d
      (childAt_setNode d n { getNode d n with expanded_text := none } rfl) key r]
    exact hwp
  have hterm2 : (getNode (setNode d n
      { getNode d n with expanded_text := none }) n).is_terminal = true := by
    rw [hg]
    exact hterm
  have hsearch2 : trie_search (setNode d n { getNode d n with expanded_text := none })
      (setNode d n { getNode d n with expanded_text := none }).root key = some n := by
    rw [show (setNode d n { getNode d n with expanded_text := none }).root = some r
      from hroot]
    rw [trie_search_some_root, hwp2]
    show (if (getNode (setNode d n { getNode d n with expanded_text := none })
        n).is_terminal = true then some n else none) = some n
    rw [if_pos hterm2]
  unfold lookup_value find_expansion
  rw [hsearch2]
  show ((getNode (setNode d n { getNode d n with expanded_text := none })
      n).expanded_text).map _ = none
  rw [hg]
  rfl


/-- C10 witness: on the one-entry configuration, storing `ab -> xyz` and then
updating `ab` with the longer `yyyyy` exhausts the 8-byte pool; the call
returns `-ENOMEM`, the old text reference is gone and lookup finds nothing. -/
theorem add_longer_value_oom_loses_old_witness :
    refsOk dAbX = true ∧ dAbX.root = some 0 ∧
    trie_search dAbX dAbX.root ['a', 'b'] = some 2 ∧
    (getNode dAbX 2).expanded_text = some 0 ∧
    (readCStr dAbX.text_pool 0).length < 5 ∧
    textCap cfgTiny < dAbX.text_pool_used + 6 ∧
    zmk_text_expander_add_expansion cfgTiny dAbX (some ['a', 'b'])
        (some ['y', 'y', 'y', 'y', 'y'])
      = (setNode dAbX 2 { getNode dAbX 2 with expanded_text := none }, -ENOMEM) ∧
    lookup_value (setNode dAbX 2 { getNode dAbX 2 with expanded_text := none })
        ['a', 'b'] = none := by
  have h := add_longer_value_oom_loses_old cfgTiny dAbX ['a', 'b']
    ['y', 'y', 'y', 'y', 'y'] 0 2 0 (by decide) (by decide) (by decide)
    (by decide) (by decide) (by decide) (by decide) (by decide)
  exact ⟨by decide, by decide, by decide, by decide, by decide, by decide,
    h.1, h.2.2.2.1⟩


/-- C2: updating an already-stored key.  If the new value fits in the old
slot (`len(value2)+1 <= len(value1)+1`) the slot is overwritten in place and
`text_pool_used` does not move, with the new value read back from the same
offset.  If the new value is strictly longer, a fresh slot is carved at the
pool cursor, `text_pool_used` grows by `len(value2)+1`, the node references
the fresh slot, and (the slot being unshared) no node references the old
slot any more. -/
theorem update_in_place_or_fresh_slot (cfg : Config) (d : ExpanderData)
    (key value2 : List Char) (r n off : Nat)
    (href : refsOk d = true) (htOk : textOk cfg d = true)
    (hnul : nul ∉ value2) (hroot : d.root = some r)
    (hsearch : trie_search d d.root key = some n)
    (htext : (getNode d n).expanded_text = some off) :
    (value2.length ≤ (readCStr d.text_pool off).length →
      trie_insert cfg d (some r) key value2
        = ({ d with text_pool := writeCStr d.text_pool off value2 }, 0) ∧
      (trie_insert cfg d (some r) key value2).1.text_pool_used
        = d.text_pool_used ∧
      readCStr (trie_insert cfg d (some r) key value2).1.text_pool off
        = value2) ∧
    ((readCStr d.text_pool off).length < value2.length →
      d.text_pool_used + (value2.length + 1) ≤ textCap cfg →
      (∀ m, m < d.nodes.length → m ≠ n →
        ¬ (getNode d m).expanded_text = some off) →
      (trie_insert cfg d (some r) key value2).2 = 0 ∧
      (trie_insert cfg d (some r) key value2).1.text_pool_used
        = d.text_pool_used + (value2.length + 1) ∧
      (getNode (trie_insert cfg d (some r) key value2).1 n).expanded_text
        = some d.text_pool_used ∧
      (∀ m, m < (trie_insert cfg d (some r) key value2).1.nodes.length →
        ¬ (getNode (trie_insert cfg d (some r) key value2).1 m).expanded_text
          = some off)) := by
  rw [hroot] at hsearch
  obtain ⟨hwp, hterm⟩ := trie_search_some_inv d r key n hsearch
  have hrlt : r < d.nodes.length := refsOk_root_lt d r href hroot
  have hnlt : n < d.nodes.length := walkPath_lt d key r n href hrlt hwp
  have hW : trie_insert_walk cfg d r key = (d, .ok n) :=
    insert_walk_of_walkPath cfg key d r n hwp
  obtain ⟨hplen, hule, hslots⟩ := textOk_parts cfg d htOk
  have hofflt : off + (readCStr d.text_pool off).length < d.text_pool_used :=
    hslots n hnlt off htext
  constructor
  · intro hfits
    have hins : trie_insert cfg d (some r) key value2
        = ({ d with text_pool := writeCStr d.text_pool off value2 }, 0) := by
      rw [trie_insert_walk_ok cfg d r key value2 d n hW]
      simp only [hterm, htext]
      rw [if_pos (by omega)]
    refine ⟨hins, by rw [hins], ?_⟩
    rw [hins]
    exact readCStr_writeCStr d.text_pool off value2 hnul (by omega)
  · intro hlonger hfit hUniq
    have hins : trie_insert cfg d (some r) key value2
        = trie_insert_store cfg d n value2 := by
      rw [trie_insert_walk_ok cfg d r key value2 d n hW]
      simp only [hterm, htext]
      rw [if_neg (by omega)]
    obtain ⟨s1, _, _, _, _, s6, s7⟩ :=
      insert_store_ok cfg d n value2 (by omega) hnlt
    rw [hins]
    refine ⟨s1, s6, ?_, ?_⟩
    · show ((trie_insert_store cfg d n value2).1.nodes.getD n
        emptyNode).expanded_text = some d.text_pool_used
      rw [s7, getD_set_self _ _ _ _ hnlt]
    · intro m hm
      rw [s7, List.length_set] at hm
      by_cases hmn : m = n
      · rw [hmn]
        show ¬ ((trie_insert_store cfg d n value2).1.nodes.getD n
          emptyNode).expanded_text = some off
        rw [s7, getD_set_self _ _ _ _ hnlt]
        intro hco
        injection hco with hco
        omega
      · show ¬ ((trie_insert_store cfg d n value2).1.nodes.getD m
          emptyNode).expanded_text = some off
        rw [s7, getD_set_ne _ _ _ _ _ (fun h => hmn h.symm)]
        exact hUniq m hm hmn

/-- C2 witness: on the small configuration with `ab -> xyz` stored at offset
0 and cursor 4, updating with the shorter `pq` overwrites in place (cursor
unchanged, `pq` read back from offset 0); updating with the longer `wxyz`
returns 0, moves the cursor to 9 and repoints the node at offset 4. -/
theorem update_in_place_or_fresh_slot_witness :
    refsOk dAbXS = true ∧ textOk cfgSmall dAbXS = true ∧
    dAbXS.root = some 0 ∧
    trie_search dAbXS dAbXS.root ['a', 'b'] = some 2 ∧
    (getNode dAbXS 2).expanded_text = some 0 ∧
    trie_insert cfgSmall dAbXS (some 0) ['a', 'b'] ['p', 'q']
      = ({ dAbXS with text_pool := writeCStr dAbXS.text_pool 0 ['p', 'q'] }, 0) ∧
    (trie_insert cfgSmall dAbXS (some 0) ['a', 'b'] ['p', 'q']).1.text_pool_used
      = dAbXS.text_pool_used ∧
    readCStr (trie_insert cfgSmall dAbXS (some 0) ['a', 'b']
      ['p', 'q']).1.text_pool 0 = ['p', 'q'] ∧
    (trie_insert cfgSmall dAbXS (some 0) ['a', 'b'] ['w', 'x', 'y', 'z']).2
      = 0 ∧
    (trie_insert cfgSmall dAbXS (some 0) ['a', 'b']
      ['w', 'x', 'y', 'z']).1.text_pool_used = dAbXS.text_pool_used + 5 ∧
    (getNode (trie_insert cfgSmall dAbXS (some 0) ['a', 'b']
      ['w', 'x', 'y', 'z']).1 2).expanded_text = some dAbXS.text_pool_used := by
  have ha := update_in_place_or_fresh_slot cfgSmall dAbXS ['a', 'b']
    ['p', 'q'] 0 2 0 (by decide) (by decide) (by decide) (by decide)
    (by decide) (by decide)
  have hb := update_in_place_or_fresh_slot cfgSmall dAbXS ['a', 'b']
    ['w', 'x', 'y', 'z'] 0 2 0 (by decide) (by decide) (by decide) (by decide)
    (by decide) (by decide)
  obtain ⟨ha1, ha2, ha3⟩ := ha.1 (by decide)
  obtain ⟨hb1, hb2, hb3, _⟩ := hb.2 (by decide) (by decide) (by decide)
  exact ⟨by decide, by decide, by decide, by decide, by decide,
    ha1, ha2, ha3, hb1, hb2, hb3⟩


/-- `trie_search` only reads the node pool. -/
theorem trie_search_nodes_congr (d1 d2 : ExpanderData) (h : d1.nodes = d2.nodes)
    (root : Option Nat) (key : List Char) :
    trie_search d1 root key = trie_search d2 root key := by
  cases root with
  | none => rfl
  | some r =>
    rw [trie_search_some_root, trie_search_some_root,
      walkPath_nodes_congr d1 d2 h key r]
    cases hwp : walkPath d2 r key with
    | none => rfl
    | some n =>
      show (if (getNode d1 n).is_terminal = true then some n else none)
        = if (getNode d2 n).is_terminal = true then some n else none
      rw [show getNode d1 n = getNode d2 n from by unfold getNode; rw [h]]

/-- `lookup_value` only reads the root, the node pool and the text pool. -/
theorem lookup_value_congr (d1 d2 : ExpanderData) (hn : d1.nodes = d2.nodes)
    (hr : d1.root = d2.root) (hp : d1.text_pool = d2.text_pool)
    (key : List Char) :
    lookup_value d1 key = lookup_value d2 key := by
  unfold lookup_value find_expansion
  rw [hr, hp, trie_search_nodes_congr d1 d2 hn d2.root key]
  cases htr : trie_search d2 d2.root key with
  | none => rfl
  | some n =>
    show ((getNode d1 n).expanded_text).map _
      = ((getNode d2 n).expanded_text).map _
    rw [show getNode d1 n = getNode d2 n from by unfold getNode; rw [hn]]

/-- Replacing only the text pool does not change which slot a key maps to. -/
theorem find_expansion_set_pool (d : ExpanderData) (pool : List Char)
    (key : List Char) :
    find_expansion { d with text_pool := pool } key = find_expansion d key := by
  unfold find_expansion
  rw [trie_search_nodes_congr { d with text_pool := pool } d rfl
    ({ d with text_pool := pool } : ExpanderData).root key]
  rfl

/-- Core round trip of `trie_insert`: on a well-formed store, a successful
insert makes the key map to exactly the inserted value. -/
theorem insert_then_lookup (cfg : Config) (d : ExpanderData)
    (key value : List Char) (r : Nat)
    (href : refsOk d = true) (htOk : textOk cfg d = true)
    (hnul : nul ∉ value) (hroot : d.root = some r)
    (hret : (trie_insert cfg d (some r) key value).2 = 0) :
    lookup_value (trie_insert cfg d (some r) key value).1 key = some value := by
  have hrlt : r < d.nodes.length := refsOk_root_lt d r href hroot
  obtain ⟨hplen, hule, hslots⟩ := textOk_parts cfg d htOk
  rcases hW : trie_insert_walk cfg d r key with ⟨d1, res⟩
  cases res with
  | error e =>
    rw [trie_insert_walk_err cfg d r key value d1 e hW] at hret
    simp only at hret
    rcases insert_walk_error cfg key d r e (by rw [hW]) with h | h <;>
      (rw [h] at hret; exact absurd hret (by decide))
  | ok n =>
    have hstate := insert_walk_state cfg key d r
    have hrefs := insert_walk_refs cfg key d r href hrlt
    have hpath := insert_walk_path cfg key d r href hrlt n (by rw [hW])
    have hnodes := insert_walk_nodes cfg key d r
    rw [hW] at hstate hrefs hpath hnodes
    simp only at hstate hrefs hpath hnodes
    obtain ⟨f1, f2, f3, f4, f5, f6, f7⟩ := hstate
    have hnlt1 : n < d1.nodes.length := hrefs.2 n rfl
    have hroot1 : d1.root = some r := by rw [f1, hroot]
    have hplen1 : d1.text_pool.length = textCap cfg := by rw [f4]; exact hplen
    have hstore : trie_insert cfg d (some r) key value
        = trie_insert_store cfg d1 n value →
        lookup_value (trie_insert cfg d (some r) key value).1 key
          = some value := by
      intro hred
      rw [hred] at hret ⊢
      by_cases hcap : textCap cfg < d1.text_pool_used + (value.length + 1)
      · rw [insert_store_nomem cfg d1 n value hcap] at hret
        simp only at hret
        exact absurd hret (by decide)
      · obtain ⟨s1, s2, s3, s4, s5, s6, s7⟩ :=
          insert_store_ok cfg d1 n value hcap hnlt1
        have hgS : getNode (trie_insert_store cfg d1 n value).1 n
            = ⟨(getNode d1 n).children, some d1.text_pool_used, true⟩ := by
          unfold getNode
          rw [s7]
          exact getD_set_self _ _ _ _ hnlt1
        have hwpS : walkPath (trie_insert_store cfg d1 n value).1 r key
            = some n := by
          rw [walkPath_nodes_congr (trie_insert_store cfg d1 n value).1
            (setNode d1 n ⟨(getNode d1 n).children, some d1.text_pool_used, true⟩)
            (by rw [s7]; rfl) key r]
          rw [walkPath_congr
            (setNode d1 n ⟨(getNode d1 n).children, some d1.text_pool_used, true⟩)
            d1 (childAt_setNode d1 n
              ⟨(getNode d1 n).children, some d1.text_pool_used, true⟩ rfl) key r]
          exact hpath
        have hsearchS : trie_search (trie_insert_store cfg d1 n value).1
            (trie_insert_store cfg d1 n value).1.root key = some n := by
          rw [show (trie_insert_store cfg d1 n value).1.root = some r from by
            rw [s2, hroot1]]
          rw [trie_search_some_root, hwpS]
          show (if (getNode (trie_insert_store cfg d1 n value).1 n).is_terminal
            = true then some n else none) = some n
          rw [if_pos (show (getNode (trie_insert_store cfg d1 n value).1
            n).is_terminal = true from by rw [hgS])]
        unfold lookup_value find_expansion
        rw [hsearchS]
        show ((getNode (trie_insert_store cfg d1 n value).1 n).expanded_text).map
          (readCStr (trie_insert_store cfg d1 n value).1.text_pool) = some value
        rw [hgS]
        show some (readCStr (trie_insert_store cfg d1 n value).1.text_pool
          d1.text_pool_used) = some value
        rw [s5]
        rw [readCStr_writeCStr d1.text_pool d1.text_pool_used value hnul
          (by rw [hplen1]; omega)]
    by_cases hT : (getNode d1 n).is_terminal = true
    · rcases hE : (getNode d1 n).expanded_text with _ | off
      · apply hstore
        rw [trie_insert_walk_ok cfg d r key value d1 n hW]
        simp only [hT, hE]
      · by_cases hfits : value.length + 1 ≤ (readCStr d1.text_pool off).length + 1
        · have hred : trie_insert cfg d (some r) key value
              = ({ d1 with text_pool := writeCStr d1.text_pool off value }, 0) := by
            rw [trie_insert_walk_ok cfg d r key value d1 n hW]
            simp only [hT, hE]
            rw [if_pos hfits]
          have hn : n < d.nodes.length := by
            by_contra hcon
            have h2 := (hnodes.2.1 n (Nat.le_of_not_lt hcon)).2
            rw [hE] at h2
            exact absurd h2 (by simp)
          have htextd : (getNode d n).expanded_text = some off := by
            rw [← (hnodes.1 n hn).2]
            exact hE
          have hoffb : off + (readCStr d.text_pool off).length
              < d.text_pool_used := hslots n hn off htextd
          rw [hred]
          show lookup_value
            ({ d1 with text_pool := writeCStr d1.text_pool off value }) key
            = some value
          have hfind : find_expansion d1 key = some off := by
            unfold find_expansion
            rw [hroot1, trie_search_some_root, hpath]
            show (match (if (getNode d1 n).is_terminal = true then some n
                else none) with
              | none => none
              | some m => (getNode d1 m).expanded_text) = some off
            rw [if_pos hT]
            exact hE
          unfold lookup_value
          rw [find_expansion_set_pool d1 (writeCStr d1.text_pool off value) key,
            hfind]
          show some (readCStr (writeCStr d1.text_pool off value) off)
            = some value
          have hfits2 : value.length ≤ (readCStr d.text_pool off).length := by
            rw [f4] at hfits
            omega
          rw [readCStr_writeCStr d1.text_pool off value hnul
            (by rw [f4, hplen]; omega)]
        · apply hstore
          rw [trie_insert_walk_ok cfg d r key value d1 n hW]
          simp only [hT, hE]
          rw [if_neg hfits]
    · apply hstore
      rw [trie_insert_walk_ok cfg d r key value d1 n hW]
      have hT2 : (getNode d1 n).is_terminal = false := by
        revert hT
        cases (getNode d1 n).is_terminal <;> simp
      rcases hE : (getNode d1 n).expanded_text with _ | off <;>
        simp only [hT2, hE]


/-- C4: on a well-formed store, a successful `add_or_update(key, value)`
followed by a search of the same key returns exactly `value` (the inserted
text is read back byte-for-byte through the trie). -/
theorem add_then_search_roundtrip (cfg : Config) (d : ExpanderData)
    (key value : List Char) (r : Nat)
    (href : refsOk d = true) (htOk : textOk cfg d = true)
    (hnul : nul ∉ value) (hroot : d.root = some r)
    (hret : (zmk_text_expander_add_expansion cfg d (some key)
      (some value)).2 = 0) :
    lookup_value (zmk_text_expander_add_expansion cfg d (some key)
      (some value)).1 key = some value := by
  by_cases h1 : key.length = 0 ∨ cfg.maxShortLen ≤ key.length ∨
      value.length = 0 ∨ cfg.maxExpandedLen ≤ value.length
  · exfalso
    have hb : zmk_text_expander_add_expansion cfg d (some key) (some value)
        = (d, -EINVAL) := by
      simp only [zmk_text_expander_add_expansion]
      rw [if_pos h1]
    rw [hb] at hret
    simp only at hret
    exact absurd hret (by decide)
  · by_cases h2 : key.all validKeyChar = true
    · rw [add_expansion_body cfg d key value h1 h2] at hret ⊢
      rw [hroot] at hret ⊢
      by_cases h3 : (trie_insert cfg d (some r) key value).2 = 0 ∧
          ¬ (trie_search d (some r) key).isSome = true
      · rw [if_pos h3] at hret ⊢
        have hcore := insert_then_lookup cfg d key value r href htOk hnul
          hroot h3.1
        show lookup_value
          ({ (trie_insert cfg d (some r) key value).1 with expansion_count :=
            ((trie_insert cfg d (some r) key value).1.expansion_count + 1) % 256 })
          key = some value
        rw [lookup_value_congr
          ({ (trie_insert cfg d (some r) key value).1 with expansion_count :=
            ((trie_insert cfg d (some r) key value).1.expansion_count + 1) % 256 })
          (trie_insert cfg d (some r) key value).1 rfl rfl rfl key]
        exact hcore
      · rw [if_neg h3] at hret ⊢
        exact insert_then_lookup cfg d key value r href htOk hnul hroot hret
    · exfalso
      have hb : zmk_text_expander_add_expansion cfg d (some key) (some value)
          = (d, -EINVAL) := by
        simp only [zmk_text_expander_add_expansion]
        rw [if_neg h1, if_pos h2]
      rw [hb] at hret
      simp only at hret
      exact absurd hret (by decide)

/-- C4 witness: adding `cd -> ef` to the small store already holding
`ab -> xyz` succeeds and searching `cd` afterwards returns `ef`. -/
theorem add_then_search_roundtrip_witness :
    refsOk dAbXS = true ∧ textOk cfgSmall dAbXS = true ∧
    ¬ nul ∈ (['e', 'f'] : List Char) ∧ dAbXS.root = some 0 ∧
    (zmk_text_expander_add_expansion cfgSmall dAbXS (some ['c', 'd'])
      (some ['e', 'f'])).2 = 0 ∧
    lookup_value (zmk_text_expander_add_expansion cfgSmall dAbXS
      (some ['c', 'd']) (some ['e', 'f'])).1 ['c', 'd'] = some ['e', 'f'] :=
  ⟨by decide, by decide, by decide, by decide, by decide,
   add_then_search_roundtrip cfgSmall dAbXS ['c', 'd'] ['e', 'f'] 0
     (by decide) (by decide) (by decide) (by decide) (by decide)⟩

end TextExpander
